import Mathlib

-- Verification of the project-board synchronizer (internal/github/github.go).
-- The Go code is shallowly embedded: pure helpers become Lean functions, the
-- GraphQL client becomes an explicit response oracle, and every remote call is
-- recorded in a trace.  Go `int` is modelled as a 64-bit machine integer via
-- saturating parses (strconv.Atoi discards the error, so out-of-range numeric
-- strings yield the clamped extreme value).  githubv4.ID is `interface{}` in
-- Go; it is modelled as `Option String` (`none` is the nil interface, `some s`
-- an interface holding string s), which matters for the `!= ""` comparisons.

namespace SignalHound

-- ===== basic string helpers (ASCII models of the strings package) =====

/-- ASCII lower-casing of one character, the fragment of unicode.ToLower the
program relies on (all matched names are ASCII). -/
def lowerChar (c : Char) : Char :=
  if 'A' ≤ c ∧ c ≤ 'Z' then Char.ofNat (c.toNat + 32) else c

/-- Model of strings.ToLower restricted to ASCII. -/
def lowerStr (s : String) : String := String.mk (s.toList.map lowerChar)

/-- pat is a prefix of s (on character lists). -/
def startsWithL : List Char → List Char → Bool
  | _, [] => true
  | [], _ :: _ => false
  | c :: cs, d :: ds => c == d && startsWithL cs ds

/-- pat occurs as a contiguous substring of s (on character lists). -/
def containsL : List Char → List Char → Bool
  | [], pat => startsWithL [] pat
  | c :: cs, pat => startsWithL (c :: cs) pat || containsL cs pat

/-- Model of strings.Contains(s, sub). -/
def strContains (s sub : String) : Bool := containsL s.toList sub.toList

/-- Splitting a character list at every dot, keeping empty components:
model of strings.Split(v, ".") (always returns at least one component). -/
def splitComps : List Char → List (List Char)
  | [] => [[]]
  | c :: rest =>
    let r := splitComps rest
    if c == '.' then [] :: r else (c :: r.headD []) :: r.tail

/-- Model of strings.Split(v, "."). -/
def goSplitDot (v : String) : List String := (splitComps v.toList).map String.mk

/-- Decimal value of a digit list. -/
def digitsVal (ds : List Char) : Nat :=
  ds.foldl (fun a c => a * 10 + (c.toNat - '0'.toNat)) 0

/-- Value returned by strconv.Atoi when its error is discarded, for an
unsigned body: syntactically invalid input gives 0, in-range digits give
their value, out-of-range digits give the clamped 64-bit extreme
(ParseInt returns the maximum-magnitude int alongside ErrRange). -/
def atoiCore (neg : Bool) (ds : List Char) : Int :=
  if ds = [] ∨ ¬ ds.all Char.isDigit then 0
  else if neg then
    if digitsVal ds > 2 ^ 63 then -(2 ^ 63) else -(digitsVal ds : Int)
  else
    if digitsVal ds ≥ 2 ^ 63 then 2 ^ 63 - 1 else (digitsVal ds : Int)

/-- Model of strconv.Atoi with the error discarded (`n, _ := strconv.Atoi s`),
64-bit int. -/
def goAtoi (s : String) : Int :=
  match s.toList with
  | '+' :: rest => atoiCore false rest
  | '-' :: rest => atoiCore true rest
  | cs => atoiCore false cs

-- ===== compareVersions (github.go:272-299) =====

/-- The per-index value the compareVersions loop computes: the component at
index i parsed by Atoi, or 0 when the list is shorter (`if i < len(parts)`).-/
def loopVal (p : List String) (i : Nat) : Int :=
  if i < p.length then goAtoi (p.getD i "") else 0

/-- The compareVersions for-loop from index i, with rem = maxLen - i remaining
iterations: returns the first nonzero componentwise comparison, else 0. -/
def cmpFrom (p1 p2 : List String) : Nat → Nat → Int
  | _, 0 => 0
  | i, rem + 1 =>
    if loopVal p1 i > loopVal p2 i then 1
    else if loopVal p1 i < loopVal p2 i then -1
    else cmpFrom p1 p2 (i + 1) rem

/-- maxLen computation of compareVersions. -/
def mLen (p1 p2 : List String) : Nat :=
  if p2.length > p1.length then p2.length else p1.length

/-- Model of compareVersions(v1, v2): split both on dots, compare
component-by-component (missing components read as 0) and return the first
nonzero comparison, else 0. -/
def compareVersions (v1 v2 : String) : Int :=
  cmpFrom (goSplitDot v1) (goSplitDot v2) 0 (mLen (goSplitDot v1) (goSplitDot v2))

-- ===== extractVersion (github.go:261-268) =====

/-- Maximal run of leading digits and the remainder (the greedy behaviour
of a regexp digit group). -/
def takeDigits : List Char → List Char × List Char
  | [] => ([], [])
  | c :: cs =>
    if c.isDigit then
      let r := takeDigits cs
      (c :: r.fst, r.snd)
    else ([], c :: cs)

/-- Consume an optional leading 'v' (the v? of the pattern). -/
def stripV (cs : List Char) : List Char :=
  match cs with
  | [] => []
  | c :: t => if c = 'v' then t else c :: t

/-- One attempted match of the pattern v?(digits).(digits) anchored at the
start of cs, returning the two digit groups on success.  An optional leading
'v' is consumed; both groups are greedy and must be nonempty, and they must
be separated by a literal dot. -/
def matchAt (cs : List Char) : Option (List Char × List Char) :=
  if ((takeDigits (stripV cs)).snd.headD ' ' = '.') then
    if (takeDigits (stripV cs)).fst ≠ [] ∧
        (takeDigits (takeDigits (stripV cs)).snd.tail).fst ≠ [] then
      some ((takeDigits (stripV cs)).fst,
            (takeDigits (takeDigits (stripV cs)).snd.tail).fst)
    else none
  else none

/-- Leftmost match of the pattern: try every start position left to right.
This is FindStringSubmatch for the anchored pattern above. -/
def scanVersion : List Char → Option (List Char × List Char)
  | [] => none
  | c :: cs =>
    match matchAt (c :: cs) with
    | some r => some r
    | none => scanVersion cs

/-- Model of extractVersion(text): first occurrence of v?(digits).(digits),
formatted as digits.digits (leading v stripped), or "" when no match. -/
def extractVersion (text : String) : String :=
  match scanVersion text.toList with
  | some (d1, d2) => String.mk d1 ++ "." ++ String.mk d2
  | none => ""

-- ===== data model and remote adapter =====

/-- Model of githubv4.ID, which is `interface{}` in Go: `none` is the nil
interface (the zero value of an ID variable), `some s` an interface holding
the string s.  Note `none` and `some ""` are distinct, exactly as a nil
interface differs from an interface holding the empty string. -/
abbrev GoID := Option String

/-- One option of a single-select field as returned by the query. -/
structure OptionNode where
  id : GoID
  name : String
deriving DecidableEq

/-- One child node of the fields(first: 50) query result: the reported
__typename plus the data of both inline fragments (the fragment that does
not apply decodes to zero values, as in the Go struct). -/
structure FieldNode where
  typename : String
  ssId : GoID
  ssName : String
  ssOptions : List OptionNode
  itId : GoID
  itName : String
deriving DecidableEq

/-- ProjectFieldInfo: a project field with its options (option name -> ID).
The Go map[string]interface{} is modelled as an association list in
insertion order. -/
structure ProjectFieldInfo where
  id : GoID
  name : String
  options : List (String × GoID)
deriving DecidableEq

/-- Insertion into the options map: overwrite an existing key, else append. -/
def mapInsert (m : List (String × GoID)) (k : String) (v : GoID) :
    List (String × GoID) :=
  if m.any (fun p => p.fst == k) then
    m.map (fun p => if p.fst == k then (k, v) else p)
  else m ++ [(k, v)]

/-- The option map built by the single-select branch of GetProjectFields.
The association list records ONE enumeration of the Go
map[string]interface{} (insertion order is used as the canonical choice);
its key/value content (last write wins) is faithful, but Go randomizes the
iteration order of a map, so the order this list fixes is NOT a property of
the program: statements that depend on enumeration order must quantify over
all permutations of the entries. -/
def buildOptions (opts : List OptionNode) : List (String × GoID) :=
  opts.foldl (fun m o => mapInsert m o.name o.id) []

/-- Every remote call the adapter can issue, as recorded in the trace. -/
inductive RemoteCall where
  | queryFields : RemoteCall
  | createDraft : String → String → RemoteCall
  | updateField : String → GoID → GoID → GoID → RemoteCall
deriving DecidableEq

/-- Response oracle for the GraphQL client: what the remote returns for the
fields query, the draft-issue mutation, and each field-update mutation. -/
structure Client where
  queryResult : Except String (List FieldNode)
  draftResult : Except String GoID
  updateResult : GoID → GoID → Except String Unit

/-- The ProjectManager struct.  githubClient is `Option Client`: `none`
models a nil *githubv4.Client. -/
structure ProjectManager where
  organization : String
  projectID : String
  fields : List (String × ProjectFieldInfo)
  githubClient : Option Client

def PROJECT_ID : String := "PVT_kwDOAM_34M4AAThW"
def ORGANIZATION : String := "kubernetes"

/-- NewProjectManager: g4.NewClient(oauth2.NewClient(...)) never returns nil,
whatever the token (including the empty token), so githubClient is always
`some`.  mkClient abstracts how the remote responds to a given token. -/
def NewProjectManager (mkClient : String → Client) (token : String) :
    ProjectManager :=
  { organization := ORGANIZATION
    projectID := PROJECT_ID
    fields := []
    githubClient := some (mkClient token) }

/-- The loop body of GetProjectFields: switch on __typename, decoding
single-select fields with their options, iteration fields with an empty
option map, and skipping any other variant. -/
def processNodes (nodes : List FieldNode) : List ProjectFieldInfo :=
  nodes.foldl
    (fun fields node =>
      if node.typename = "ProjectV2SingleSelectField" then
        fields ++ [⟨node.ssId, node.ssName, buildOptions node.ssOptions⟩]
      else if node.typename = "ProjectV2IterationField" then
        fields ++ [⟨node.itId, node.itName, []⟩]
      else fields)
    []

/-- Spec-side per-node view of discovery: a recognized variant maps to its
normalized field, an unrecognized variant to none (dropped). -/
def nodeToField (node : FieldNode) : Option ProjectFieldInfo :=
  if node.typename = "ProjectV2SingleSelectField" then
    some ⟨node.ssId, node.ssName, buildOptions node.ssOptions⟩
  else if node.typename = "ProjectV2IterationField" then
    some ⟨node.itId, node.itName, []⟩
  else none

/-- GetProjectFields: nil-client guard, then one query; on query failure the
wrapped error propagates, on success the nodes are normalized.  The first
component is the trace of remote calls issued. -/
def GetProjectFields (g : ProjectManager) :
    List RemoteCall × Except String (List ProjectFieldInfo) :=
  match g.githubClient with
  | none => ([], Except.error "github GraphQL client is nil")
  | some c =>
    match c.queryResult with
    | Except.error e =>
      ([RemoteCall.queryFields],
       Except.error ("failed to query project fields: " ++ e))
    | Except.ok nodes =>
      ([RemoteCall.queryFields], Except.ok (processNodes nodes))

-- ===== field resolver (github.go:144-206) =====

/-- The four resolved field/value IDs; all start as nil interfaces. -/
structure Resolved where
  k8sReleaseFieldID : GoID := none
  viewFieldID : GoID := none
  statusFieldID : GoID := none
  boardFieldID : GoID := none
  k8sReleaseValueID : GoID := none
  viewValueID : GoID := none
  statusValueID : GoID := none
  boardValueID : GoID := none
deriving DecidableEq

/-- Option predicate of the View branch. -/
def viewOptionMatch (n : String) : Bool :=
  strContains (lowerStr n) "issue-tracking" || strContains (lowerStr n) "issue tracking"

/-- Option predicate of the Board branch: the lower-cased option name must be
a substring of the caller-supplied board string (which is NOT lower-cased). -/
def boardOptionMatch (board : String) (n : String) : Bool :=
  strContains board (lowerStr n)

/-- Option predicate of the Status branch. -/
def statusOptionMatch (n : String) : Bool :=
  strContains (lowerStr n) "drafting" || strContains (lowerStr n) "draft"

/-- First option satisfying p in the given enumeration, as the inner
for/break loops select it.  The argument list stands for one enumeration of
a Go map whose `range` order is randomized: which of several satisfying
options the program picks is unspecified, so program-level statements either
quantify over all enumerations or conclude only "some satisfying option". -/
def findOptionBy (p : String → Bool) : List (String × GoID) → Option GoID
  | [] => none
  | (n, oid) :: rest => if p n then some oid else findOptionBy p rest

/-- One step of the latest-version loop: replace the accumulator when it is
still empty or the new version compares strictly greater. -/
def chooseMax (acc : String × GoID) (x : String × GoID) : String × GoID :=
  if acc.fst = "" ∨ compareVersions x.fst acc.fst > 0 then x else acc

/-- The latest-version selection of the Release branch: run extractVersion on
every option name, skip options that do not parse, and keep the first option
of the given enumeration whose version is strictly greater than everything
before it.  The accumulator starts as ("", g4.ID("")), i.e. ("", some "").
The list stands for one enumeration of a Go map whose `range` order is
randomized, so the first-of-ties behaviour of any single enumeration is a
model artifact: program-level statements quantify over all enumerations. -/
def findLatestOption (opts : List (String × GoID)) : String × GoID :=
  opts.foldl
    (fun acc o =>
      if extractVersion o.fst ≠ "" then chooseMax acc (extractVersion o.fst, o.snd)
      else acc)
    ("", some "")

/-- Release branch: on a field whose lower-cased name contains
"k8s release", overwrite the field ID and, when the selection produced a
non-empty-string ID, the value ID. -/
def stepRelease (r : Resolved) (f : ProjectFieldInfo) : Resolved :=
  if strContains (lowerStr f.name) "k8s release" then
    { r with
      k8sReleaseFieldID := f.id
      k8sReleaseValueID :=
        if (findLatestOption f.options).snd ≠ some "" then
          (findLatestOption f.options).snd
        else r.k8sReleaseValueID }
  else r

/-- View branch. -/
def stepView (r : Resolved) (f : ProjectFieldInfo) : Resolved :=
  if strContains (lowerStr f.name) "view" then
    { r with
      viewFieldID := f.id
      viewValueID := (findOptionBy viewOptionMatch f.options).getD r.viewValueID }
  else r

/-- Board branch. -/
def stepBoard (board : String) (r : Resolved) (f : ProjectFieldInfo) : Resolved :=
  if strContains (lowerStr f.name) "board" then
    { r with
      boardFieldID := f.id
      boardValueID :=
        (findOptionBy (boardOptionMatch board) f.options).getD r.boardValueID }
  else r

/-- Status branch. -/
def stepStatus (r : Resolved) (f : ProjectFieldInfo) : Resolved :=
  if strContains (lowerStr f.name) "status" then
    { r with
      statusFieldID := f.id
      statusValueID :=
        (findOptionBy statusOptionMatch f.options).getD r.statusValueID }
  else r

/-- One iteration of the resolver loop: the four independent branches in
source order (release, view, board, status). -/
def resolveStep (board : String) (r : Resolved) (f : ProjectFieldInfo) : Resolved :=
  stepStatus (stepBoard board (stepView (stepRelease r f) f) f) f

/-- The whole resolver loop over the discovered fields. -/
def resolveFields (board : String) (fields : List ProjectFieldInfo) : Resolved :=
  fields.foldl (resolveStep board) {}

-- ===== draft creation and best-effort updates (github.go:208-258) =====

/-- One entry of the fieldUpdates slice. -/
structure FieldUpdate where
  fieldID : GoID
  optionID : GoID
  fieldName : String
deriving DecidableEq

/-- The fieldUpdates slice, in its fixed source order:
K8s Release, View, Status, Testgrid Board. -/
def fieldUpdatesList (r : Resolved) : List FieldUpdate :=
  [⟨r.k8sReleaseFieldID, r.k8sReleaseValueID, "K8s Release"⟩,
   ⟨r.viewFieldID, r.viewValueID, "View"⟩,
   ⟨r.statusFieldID, r.statusValueID, "Status"⟩,
   ⟨r.boardFieldID, r.boardValueID, "Testgrid Board"⟩]

/-- The guard `update.fieldID != "" && update.optionID != ""`: both IDs must
differ from the interface holding the empty string.  A nil interface (an
unresolved role) passes this guard. -/
def updateGuard (u : FieldUpdate) : Bool :=
  u.fieldID != some "" && u.optionID != some ""

/-- Result of one CreateDraftIssue run: the trace of remote calls issued, the
warnings printed, and the returned error (or success). -/
structure RunResult where
  calls : List RemoteCall
  warnings : List String
  outcome : Except String Unit

/-- The update loop: for each entry passing the guard, attempt the mutation;
a failure only prints a warning and the loop continues. -/
def runUpdates (c : Client) (itemID : GoID) :
    List FieldUpdate → List RemoteCall × List String
  | [] => ([], [])
  | u :: rest =>
    if updateGuard u then
      match c.updateResult u.fieldID u.optionID with
      | Except.ok _ =>
        ((RemoteCall.updateField u.fieldName u.fieldID u.optionID itemID) ::
           (runUpdates c itemID rest).fst,
         (runUpdates c itemID rest).snd)
      | Except.error e =>
        ((RemoteCall.updateField u.fieldName u.fieldID u.optionID itemID) ::
           (runUpdates c itemID rest).fst,
         ("Warning: failed to update " ++ u.fieldName ++ " field: " ++ e) ::
           (runUpdates c itemID rest).snd)
    else runUpdates c itemID rest

/-- CreateDraftIssue: nil-client guard, field discovery (fatal on failure),
field resolution, the draft-issue mutation (fatal on failure), then the
best-effort update loop; always returns success once the draft exists. -/
def CreateDraftIssue (g : ProjectManager) (title body board : String) : RunResult :=
  match g.githubClient with
  | none => ⟨[], [], Except.error "github GraphQL client is nil"⟩
  | some c =>
    match GetProjectFields g with
    | (qcalls, Except.error e) =>
      ⟨qcalls, [], Except.error ("failed to get project fields: " ++ e)⟩
    | (qcalls, Except.ok fields) =>
      match c.draftResult with
      | Except.error e =>
        ⟨qcalls ++ [RemoteCall.createDraft title body], [],
         Except.error ("failed to create draft issue: " ++ e)⟩
      | Except.ok itemID =>
        ⟨qcalls ++ RemoteCall.createDraft title body ::
           (runUpdates c itemID (fieldUpdatesList (resolveFields board fields))).fst,
         (runUpdates c itemID (fieldUpdatesList (resolveFields board fields))).snd,
         Except.ok ()⟩

-- ===== spec-side definitions =====

/-- Spec-side integer parse: "Non-numeric components parse as 0", numeric
components are their exact mathematical value (no machine width). -/
def specAtoi (s : String) : Int :=
  if s.toList ≠ [] ∧ s.toList.all Char.isDigit then (digitsVal s.toList : Int) else 0

/-- Pad a component list with zero-valued components up to length n. -/
def padTo (l : List Int) (n : Nat) : List Int := l ++ List.replicate (n - l.length) 0

/-- Componentwise first-nonzero comparison with n comparisons: heads first,
1 or -1 at the first difference, else 0 (missing components read as 0). -/
def cmpL : List Int → List Int → Nat → Int
  | _, _, 0 => 0
  | xs, ys, r + 1 =>
    if xs.headD 0 > ys.headD 0 then 1
    else if xs.headD 0 < ys.headD 0 then -1
    else cmpL xs.tail ys.tail r

/-- The comparison algorithm as the spec words it, parametrized by the
component parse: split on dots, parse, pad the shorter with zeros to the
longer length, compare left to right, first nonzero wins, else 0. -/
def specCompareWith (parse : String → Int) (a b : String) : Int :=
  cmpL (padTo ((goSplitDot a).map parse) (max ((goSplitDot a).map parse).length ((goSplitDot b).map parse).length))
       (padTo ((goSplitDot b).map parse) (max ((goSplitDot a).map parse).length ((goSplitDot b).map parse).length))
       (max ((goSplitDot a).map parse).length ((goSplitDot b).map parse).length)

/-- Well-formed dotted-numeric version string: every dot-separated component
is a nonempty digit string. -/
def wfVersion (v : String) : Bool :=
  (goSplitDot v).all fun p => decide (p.toList ≠ []) && p.toList.all Char.isDigit

/-- The version pattern occurs somewhere in the text: some nonempty digit
run, a dot, and another nonempty digit run appear contiguously. -/
def hasVerPat (cs : List Char) : Prop :=
  ∃ l d1 d2 r, cs = l ++ (d1 ++ '.' :: (d2 ++ r)) ∧ d1 ≠ [] ∧ d2 ≠ [] ∧
    (∀ c ∈ d1, c.isDigit = true) ∧ (∀ c ∈ d2, c.isDigit = true)

/-- The list does not begin with a digit (used to state that a digit group
is greedy, i.e. maximal). -/
def notDigitStart : List Char → Bool
  | [] => true
  | c :: _ => !c.isDigit

/-- The pattern v?(digits).(digits) can match starting at position i of cs:
an optional 'v', a nonempty digit run, a dot, and a nonempty digit run. -/
def patStartAt (cs : List Char) (i : Nat) : Prop :=
  ∃ pre d1 d2 r, (pre = [] ∨ pre = ['v']) ∧
    cs.drop i = pre ++ (d1 ++ '.' :: (d2 ++ r)) ∧ d1 ≠ [] ∧ d2 ≠ [] ∧
    (∀ c ∈ d1, c.isDigit = true) ∧ (∀ c ∈ d2, c.isDigit = true)

/-- The pattern matches at position i of cs with exactly the (greedy) groups
d1 and d2: an optional 'v', then d1, a dot, then d2, where d2 is maximal
(the remainder does not begin with a digit; d1 is automatically maximal
because the dot follows it). -/
def patGroupsAt (cs : List Char) (i : Nat) (d1 d2 : List Char) : Prop :=
  ∃ pre r, (pre = [] ∨ pre = ['v']) ∧
    cs.drop i = pre ++ (d1 ++ '.' :: (d2 ++ r)) ∧ d1 ≠ [] ∧ d2 ≠ [] ∧
    (∀ c ∈ d1, c.isDigit = true) ∧ (∀ c ∈ d2, c.isDigit = true) ∧
    notDigitStart r = true

/-- First element of l that is maximal in l under compareVersions on the
parsed version (ties go to the earlier element). -/
def isMaxOf (l : List (String × GoID)) (x : String × GoID) : Bool :=
  l.all fun y => decide (compareVersions y.fst x.fst ≤ 0)

/-- The options whose names parse to a version, with their parses. -/
def parsedOptions (opts : List (String × GoID)) : List (String × GoID) :=
  opts.filterMap fun o =>
    if extractVersion o.fst ≠ "" then some (extractVersion o.fst, o.snd) else none

-- ===== lemmas: the componentwise comparison engine =====

theorem cmpL_nil_nil (r : Nat) : cmpL [] [] r = 0 := by
  induction r with
  | zero => rfl
  | succ r ih => simpa [cmpL] using ih

theorem cmpL_refl (xs : List Int) (r : Nat) : cmpL xs xs r = 0 := by
  induction r generalizing xs with
  | zero => rfl
  | succ r ih => simp [cmpL, ih]

theorem cmpL_antisym (xs ys : List Int) (r : Nat) :
    cmpL xs ys r = -(cmpL ys xs r) := by
  induction r generalizing xs ys with
  | zero => rfl
  | succ r ih =>
    simp only [cmpL]
    by_cases hgt : xs.headD 0 > ys.headD 0
    · rw [if_pos hgt, if_neg (by omega), if_pos (by omega)]; norm_num
    · rw [if_neg hgt]
      by_cases hlt : xs.headD 0 < ys.headD 0
      · rw [if_pos hlt, if_pos (by omega)]
      · rw [if_neg hlt, if_neg (by omega), if_neg (by omega)]
        exact ih _ _

theorem cmpL_trans (xs ys zs : List Int) (r : Nat)
    (h1 : cmpL xs ys r ≤ 0) (h2 : cmpL ys zs r ≤ 0) : cmpL xs zs r ≤ 0 := by
  induction r generalizing xs ys zs with
  | zero => simp [cmpL]
  | succ r ih =>
    simp only [cmpL] at h1 h2 ⊢
    by_cases hxy : xs.headD 0 > ys.headD 0
    · rw [if_pos hxy] at h1; norm_num at h1
    · rw [if_neg hxy] at h1
      by_cases hyz : ys.headD 0 > zs.headD 0
      · rw [if_pos hyz] at h2; norm_num at h2
      · rw [if_neg hyz] at h2
        by_cases hxz : xs.headD 0 > zs.headD 0
        · exfalso; omega
        · rw [if_neg hxz]
          by_cases hxz2 : xs.headD 0 < zs.headD 0
          · rw [if_pos hxz2]; norm_num
          · rw [if_neg hxz2]
            rw [if_neg (by omega : ¬ xs.headD 0 < ys.headD 0)] at h1
            rw [if_neg (by omega : ¬ ys.headD 0 < zs.headD 0)] at h2
            exact ih _ _ _ h1 h2

theorem cmpL_fuel (xs ys : List Int) (r s : Nat)
    (h1 : xs.length ≤ r) (h2 : ys.length ≤ r)
    (h3 : xs.length ≤ s) (h4 : ys.length ≤ s) :
    cmpL xs ys r = cmpL xs ys s := by
  induction r generalizing s xs ys with
  | zero =>
    have hx : xs = [] := List.eq_nil_of_length_eq_zero (by omega)
    have hy : ys = [] := List.eq_nil_of_length_eq_zero (by omega)
    subst hx; subst hy
    rw [cmpL_nil_nil, cmpL_nil_nil]
  | succ r ih =>
    cases s with
    | zero =>
      have hx : xs = [] := List.eq_nil_of_length_eq_zero (by omega)
      have hy : ys = [] := List.eq_nil_of_length_eq_zero (by omega)
      subst hx; subst hy
      rw [cmpL_nil_nil, cmpL_nil_nil]
    | succ s =>
      simp only [cmpL]
      by_cases hgt : xs.headD 0 > ys.headD 0
      · rw [if_pos hgt, if_pos hgt]
      · rw [if_neg hgt, if_neg hgt]
        by_cases hlt : xs.headD 0 < ys.headD 0
        · rw [if_pos hlt, if_pos hlt]
        · rw [if_neg hlt, if_neg hlt]
          refine ih _ _ _ ?_ ?_ ?_ ?_ <;> simp [List.length_tail] <;> omega

theorem padTo_headD (xs : List Int) (n : Nat) :
    (padTo xs (n + 1)).headD 0 = xs.headD 0 := by
  cases xs with
  | nil => simp [padTo, List.replicate_succ]
  | cons x xs => simp [padTo]

theorem padTo_tail (xs : List Int) (n : Nat) :
    (padTo xs (n + 1)).tail = padTo xs.tail n := by
  cases xs with
  | nil => simp [padTo, List.replicate_succ]
  | cons x xs => simp [padTo, Nat.succ_sub_succ]

theorem cmpL_padTo (xs ys : List Int) (n : Nat) :
    cmpL (padTo xs n) (padTo ys n) n = cmpL xs ys n := by
  induction n generalizing xs ys with
  | zero => rfl
  | succ n ih =>
    simp only [cmpL, padTo_headD, padTo_tail]
    by_cases hgt : xs.headD 0 > ys.headD 0
    · rw [if_pos hgt, if_pos hgt]
    · rw [if_neg hgt, if_neg hgt]
      by_cases hlt : xs.headD 0 < ys.headD 0
      · rw [if_pos hlt, if_pos hlt]
      · rw [if_neg hlt, if_neg hlt]
        exact ih _ _

-- ===== lemmas: compareVersions equals the componentwise comparison =====

theorem dropMapHead (p : List String) (i : Nat) :
    ((p.drop i).map goAtoi).headD 0 = loopVal p i := by
  induction p generalizing i with
  | nil => simp [loopVal]
  | cons h t ih =>
    cases i with
    | zero => simp [loopVal]
    | succ i =>
      rw [List.drop_succ_cons, ih]
      simp [loopVal, Nat.succ_lt_succ_iff]

theorem dropMapTail (p : List String) (i : Nat) :
    ((p.drop i).map goAtoi).tail = (p.drop (i + 1)).map goAtoi := by
  induction p generalizing i with
  | nil => simp
  | cons h t ih =>
    cases i with
    | zero => simp
    | succ i => rw [List.drop_succ_cons, ih, List.drop_succ_cons]

theorem cmpFrom_eq_cmpL (p1 p2 : List String) (rem : Nat) : ∀ i,
    cmpFrom p1 p2 i rem =
      cmpL ((p1.drop i).map goAtoi) ((p2.drop i).map goAtoi) rem := by
  induction rem with
  | zero => intro i; rfl
  | succ rem ih =>
    intro i
    simp only [cmpFrom, cmpL, dropMapHead, dropMapTail]
    by_cases h1 : loopVal p1 i > loopVal p2 i
    · simp [h1]
    · by_cases h2 : loopVal p1 i < loopVal p2 i
      · simp [h1, h2]
      · simp [h1, h2, ih (i + 1)]

theorem mLen_eq_max (p1 p2 : List String) :
    mLen p1 p2 = max p1.length p2.length := by
  unfold mLen; split <;> omega

theorem compareVersions_eq_cmpL (v1 v2 : String) :
    compareVersions v1 v2 =
      cmpL ((goSplitDot v1).map goAtoi) ((goSplitDot v2).map goAtoi)
        (mLen (goSplitDot v1) (goSplitDot v2)) := by
  unfold compareVersions
  rw [cmpFrom_eq_cmpL]
  simp

theorem compareVersions_fuel (v1 v2 : String) (r : Nat)
    (h1 : (goSplitDot v1).length ≤ r) (h2 : (goSplitDot v2).length ≤ r) :
    compareVersions v1 v2 =
      cmpL ((goSplitDot v1).map goAtoi) ((goSplitDot v2).map goAtoi) r := by
  rw [compareVersions_eq_cmpL]
  refine cmpL_fuel _ _ _ _ ?_ ?_ ?_ ?_ <;>
    simp [List.length_map, mLen_eq_max] <;> omega

theorem compareVersions_eq_spec (a b : String) :
    compareVersions a b = specCompareWith goAtoi a b := by
  unfold specCompareWith
  rw [cmpL_padTo]
  exact compareVersions_fuel a b _ (by simp [List.length_map])
    (by simp [List.length_map])

theorem compareVersions_refl (v : String) : compareVersions v v = 0 := by
  rw [compareVersions_eq_cmpL]; exact cmpL_refl _ _

theorem compareVersions_antisym (a b : String) :
    compareVersions a b = -(compareVersions b a) := by
  rw [compareVersions_eq_cmpL, compareVersions_eq_cmpL, cmpL_antisym]
  rw [mLen_eq_max, mLen_eq_max, Nat.max_comm]

theorem compareVersions_trans (a b c : String)
    (h1 : compareVersions a b ≤ 0) (h2 : compareVersions b c ≤ 0) :
    compareVersions a c ≤ 0 := by
  set r := max (max (goSplitDot a).length (goSplitDot b).length)
    (goSplitDot c).length with hr
  rw [compareVersions_fuel a b r (by omega) (by omega)] at h1
  rw [compareVersions_fuel b c r (by omega) (by omega)] at h2
  rw [compareVersions_fuel a c r (by omega) (by omega)]
  exact cmpL_trans _ _ _ _ h1 h2

-- ===== lemmas: first-maximum selection of the Release branch =====

theorem bool_eq_of_iff {a b : Bool} (h : a = true ↔ b = true) : a = b := by
  cases a <;> cases b <;> simp_all

theorem isMaxOf_iff (l : List (String × GoID)) (x : String × GoID) :
    isMaxOf l x = true ↔ ∀ y ∈ l, compareVersions y.fst x.fst ≤ 0 := by
  simp [isMaxOf, List.all_eq_true]

theorem isMaxOf_cons (y : String × GoID) (l : List (String × GoID))
    (x : String × GoID) :
    isMaxOf (y :: l) x =
      (decide (compareVersions y.fst x.fst ≤ 0) && isMaxOf l x) := by
  simp [isMaxOf]

theorem compareVersions_le_of_gt {x a : String}
    (h : compareVersions x a > 0) : compareVersions a x ≤ 0 := by
  rw [compareVersions_antisym]; omega

theorem find?_congr {α : Type} (l : List α) (p q : α → Bool)
    (h : ∀ x ∈ l, p x = q x) : l.find? p = l.find? q := by
  induction l with
  | nil => rfl
  | cons a t ih =>
    have ha := h a (List.mem_cons_self a t)
    by_cases hqa : q a = true
    · rw [List.find?_cons_of_pos _ (by rw [ha]; exact hqa),
        List.find?_cons_of_pos _ hqa]
    · rw [List.find?_cons_of_neg _ (by rw [ha]; exact hqa),
        List.find?_cons_of_neg _ hqa]
      exact ih fun x hx => h x (List.mem_cons_of_mem _ hx)

theorem foldl_chooseMax_eq (l : List (String × GoID)) :
    ∀ a : String × GoID, a.fst ≠ "" → (∀ x ∈ l, x.fst ≠ "") →
      List.foldl chooseMax a l =
        ((a :: l).find? (isMaxOf (a :: l))).getD ("", some "") := by
  induction l with
  | nil =>
    intro a _ _
    have hmax : isMaxOf [a] a = true := by
      rw [isMaxOf_iff]
      intro y hy
      rw [List.mem_singleton] at hy
      subst hy
      simp [compareVersions_refl]
    rw [List.foldl_nil, List.find?_cons_of_pos _ hmax, Option.getD_some]
  | cons x t ih =>
    intro a ha hmem
    rw [List.foldl_cons]
    by_cases hgt : compareVersions x.fst a.fst > 0
    · have hax : chooseMax a x = x := by simp [chooseMax, hgt]
      rw [hax, ih x (hmem x (by simp)) fun y hy => hmem y (by simp [hy])]
      have hanot : ¬ isMaxOf (a :: x :: t) a = true := by
        rw [isMaxOf_iff]
        intro hall
        have := hall x (by simp)
        omega
      rw [List.find?_cons_of_neg _ hanot]
      have hcong : ∀ y ∈ x :: t, isMaxOf (a :: x :: t) y = isMaxOf (x :: t) y := by
        intro y hy
        apply bool_eq_of_iff
        rw [isMaxOf_iff, isMaxOf_iff]
        constructor
        · intro hbig z hz
          exact hbig z (List.mem_cons_of_mem _ hz)
        · intro hsmall z hz
          rcases List.mem_cons.mp hz with rfl | hz2
          · exact compareVersions_trans _ _ _ (compareVersions_le_of_gt hgt)
              (hsmall x (by simp))
          · exact hsmall z hz2
      rw [find?_congr _ _ _ hcong]
    · have hax : chooseMax a x = a := by
        simp only [chooseMax, ite_eq_right_iff]
        intro hcond
        rcases hcond with hc | hc
        · exact absurd hc ha
        · exact absurd hc hgt
      have hxa : compareVersions x.fst a.fst ≤ 0 := by omega
      rw [hax, ih a ha fun y hy => hmem y (by simp [hy])]
      by_cases hamax : isMaxOf (a :: x :: t) a = true
      · have hamax2 : isMaxOf (a :: t) a = true := by
          rw [isMaxOf_iff] at hamax ⊢
          intro y hy
          rcases List.mem_cons.mp hy with rfl | hy2
          · exact hamax y (by simp)
          · exact hamax y (by simp [hy2])
        rw [List.find?_cons_of_pos _ hamax, List.find?_cons_of_pos _ hamax2]
      · have hamax2 : ¬ isMaxOf (a :: t) a = true := by
          intro hsm
          apply hamax
          rw [isMaxOf_iff] at hsm ⊢
          intro y hy
          rcases List.mem_cons.mp hy with rfl | hy2
          · exact hsm y (by simp)
          · rcases List.mem_cons.mp hy2 with rfl | hy3
            · exact hxa
            · exact hsm y (by simp [hy3])
        rw [List.find?_cons_of_neg _ hamax, List.find?_cons_of_neg _ hamax2]
        have hxnot : ¬ isMaxOf (a :: x :: t) x = true := by
          intro hxm
          apply hamax
          rw [isMaxOf_iff] at hxm ⊢
          intro y hy
          exact compareVersions_trans _ _ _ (hxm y hy) hxa
        rw [List.find?_cons_of_neg _ hxnot]
        have hcong : ∀ y ∈ t, isMaxOf (a :: x :: t) y = isMaxOf (a :: t) y := by
          intro y hy
          apply bool_eq_of_iff
          rw [isMaxOf_iff, isMaxOf_iff]
          constructor
          · intro hbig z hz
            rcases List.mem_cons.mp hz with rfl | hz2
            · exact hbig z (by simp)
            · exact hbig z (by simp [hz2])
          · intro hsmall z hz
            rcases List.mem_cons.mp hz with rfl | hz2
            · exact hsmall z (by simp)
            · rcases List.mem_cons.mp hz2 with rfl | hz3
              · exact compareVersions_trans _ _ _ hxa (hsmall a (by simp))
              · exact hsmall z (by simp [hz3])
        rw [find?_congr _ _ _ hcong]

theorem foldl_parsed (opts : List (String × GoID)) :
    ∀ acc : String × GoID,
      opts.foldl
        (fun acc o =>
          if extractVersion o.fst ≠ "" then chooseMax acc (extractVersion o.fst, o.snd)
          else acc) acc
      = (parsedOptions opts).foldl chooseMax acc := by
  induction opts with
  | nil => intro acc; rfl
  | cons o t ih =>
    intro acc
    rw [List.foldl_cons]
    simp only [parsedOptions, List.filterMap_cons]
    by_cases h : extractVersion o.fst ≠ ""
    · rw [if_pos h, if_pos h, List.foldl_cons]
      exact ih _
    · rw [if_neg h, if_neg h]
      exact ih _

theorem parsed_fst_ne (opts : List (String × GoID)) :
    ∀ x ∈ parsedOptions opts, x.fst ≠ "" := by
  intro x hx
  simp only [parsedOptions, List.mem_filterMap] at hx
  rcases hx with ⟨o, _, ho⟩
  by_cases h : extractVersion o.fst ≠ ""
  · rw [if_pos h] at ho
    cases ho
    exact h
  · rw [if_neg h] at ho
    cases ho

theorem findLatestOption_eq (opts : List (String × GoID)) :
    findLatestOption opts =
      ((parsedOptions opts).find?
        (isMaxOf (parsedOptions opts))).getD ("", some "") := by
  unfold findLatestOption
  rw [foldl_parsed]
  rcases hp : parsedOptions opts with _ | ⟨h, t⟩
  · rfl
  · have hinit : chooseMax ("", some "") h = h := by simp [chooseMax]
    rw [List.foldl_cons, hinit]
    have hne := parsed_fst_ne opts
    rw [hp] at hne
    exact foldl_chooseMax_eq t h (hne h (by simp)) fun y hy => hne y (by simp [hy])

theorem foldl_chooseMax_mem (l : List (String × GoID)) :
    ∀ a : String × GoID,
      List.foldl chooseMax a l = a ∨ List.foldl chooseMax a l ∈ l := by
  induction l with
  | nil => intro a; left; rfl
  | cons x t ih =>
    intro a
    rw [List.foldl_cons]
    have hstep : chooseMax a x = a ∨ chooseMax a x = x := by
      unfold chooseMax
      split
      · right; rfl
      · left; rfl
    rcases ih (chooseMax a x) with hfold | hfold
    · rcases hstep with hax | hax
      · left
        rw [hfold, hax]
      · right
        rw [hfold, hax]
        simp
    · right
      exact List.mem_cons_of_mem _ hfold

/-- On an enumeration with at least one parsing option, the selection is one
of the parsed options. -/
theorem findLatest_mem (opts : List (String × GoID))
    (hne : parsedOptions opts ≠ []) :
    findLatestOption opts ∈ parsedOptions opts := by
  unfold findLatestOption
  rw [foldl_parsed]
  rcases hp : parsedOptions opts with _ | ⟨h, t⟩
  · exact absurd hp hne
  · have hinit : chooseMax ("", some "") h = h := by simp [chooseMax]
    rw [List.foldl_cons, hinit]
    rcases foldl_chooseMax_mem t h with hm | hm
    · rw [hm]
      simp
    · exact List.mem_cons_of_mem _ hm

-- ===== lemmas: first-match option selection =====

theorem findOptionBy_eq (p : String → Bool) (opts : List (String × GoID)) :
    findOptionBy p opts = (opts.find? fun o => p o.fst).map Prod.snd := by
  induction opts with
  | nil => rfl
  | cons o t ih =>
    rcases o with ⟨n, oid⟩
    by_cases h : p n = true
    · rw [findOptionBy, if_pos h, List.find?_cons_of_pos _ (by simpa using h)]
      rfl
    · rw [findOptionBy, if_neg h, List.find?_cons_of_neg _ (by simpa using h)]
      exact ih

-- ===== lemmas: discovery normalization =====

theorem processNodes_go (nodes : List FieldNode) : ∀ acc : List ProjectFieldInfo,
    nodes.foldl
      (fun fields node =>
        if node.typename = "ProjectV2SingleSelectField" then
          fields ++ [⟨node.ssId, node.ssName, buildOptions node.ssOptions⟩]
        else if node.typename = "ProjectV2IterationField" then
          fields ++ [⟨node.itId, node.itName, []⟩]
        else fields) acc
    = acc ++ nodes.filterMap nodeToField := by
  induction nodes with
  | nil => intro acc; simp
  | cons n t ih =>
    intro acc
    rw [List.foldl_cons, List.filterMap_cons]
    by_cases h1 : n.typename = "ProjectV2SingleSelectField"
    · have hn : nodeToField n = some ⟨n.ssId, n.ssName, buildOptions n.ssOptions⟩ := by
        unfold nodeToField
        rw [if_pos h1]
      rw [if_pos h1, hn, ih]
      simp
    · by_cases h2 : n.typename = "ProjectV2IterationField"
      · have hn : nodeToField n = some ⟨n.itId, n.itName, []⟩ := by
          unfold nodeToField
          rw [if_neg h1, if_pos h2]
        rw [if_neg h1, if_pos h2, hn, ih]
        simp
      · have hn : nodeToField n = none := by
          unfold nodeToField
          rw [if_neg h1, if_neg h2]
        rw [if_neg h1, if_neg h2, hn, ih]

theorem processNodes_eq (nodes : List FieldNode) :
    processNodes nodes = nodes.filterMap nodeToField := by
  unfold processNodes
  rw [processNodes_go]
  simp

-- ===== lemmas: the update loop =====

theorem runUpdates_eq (c : Client) (itemID : GoID) (ts : List FieldUpdate) :
    runUpdates c itemID ts =
      ((ts.filter updateGuard).map fun u =>
         RemoteCall.updateField u.fieldName u.fieldID u.optionID itemID,
       (ts.filter updateGuard).filterMap fun u =>
         match c.updateResult u.fieldID u.optionID with
         | Except.ok _ => none
         | Except.error e =>
           some ("Warning: failed to update " ++ u.fieldName ++ " field: " ++ e)) := by
  induction ts with
  | nil => rfl
  | cons u rest ih =>
    cases hg : updateGuard u with
    | false => simp [runUpdates, hg, List.filter_cons, ih]
    | true =>
      cases hres : c.updateResult u.fieldID u.optionID with
      | ok v => simp [runUpdates, hg, hres, List.filter_cons, ih]
      | error e => simp [runUpdates, hg, hres, List.filter_cons, ih]

-- ===== lemmas: resolver steps =====

theorem stepRelease_others (r : Resolved) (f : ProjectFieldInfo) :
    (stepRelease r f).viewFieldID = r.viewFieldID ∧
    (stepRelease r f).viewValueID = r.viewValueID ∧
    (stepRelease r f).boardFieldID = r.boardFieldID ∧
    (stepRelease r f).boardValueID = r.boardValueID ∧
    (stepRelease r f).statusFieldID = r.statusFieldID ∧
    (stepRelease r f).statusValueID = r.statusValueID := by
  unfold stepRelease
  split <;> simp

theorem stepView_others (r : Resolved) (f : ProjectFieldInfo) :
    (stepView r f).k8sReleaseFieldID = r.k8sReleaseFieldID ∧
    (stepView r f).k8sReleaseValueID = r.k8sReleaseValueID ∧
    (stepView r f).boardFieldID = r.boardFieldID ∧
    (stepView r f).boardValueID = r.boardValueID ∧
    (stepView r f).statusFieldID = r.statusFieldID ∧
    (stepView r f).statusValueID = r.statusValueID := by
  unfold stepView
  split <;> simp

theorem stepBoard_others (board : String) (r : Resolved) (f : ProjectFieldInfo) :
    (stepBoard board r f).k8sReleaseFieldID = r.k8sReleaseFieldID ∧
    (stepBoard board r f).k8sReleaseValueID = r.k8sReleaseValueID ∧
    (stepBoard board r f).viewFieldID = r.viewFieldID ∧
    (stepBoard board r f).viewValueID = r.viewValueID ∧
    (stepBoard board r f).statusFieldID = r.statusFieldID ∧
    (stepBoard board r f).statusValueID = r.statusValueID := by
  unfold stepBoard
  split <;> simp

theorem stepStatus_others (r : Resolved) (f : ProjectFieldInfo) :
    (stepStatus r f).k8sReleaseFieldID = r.k8sReleaseFieldID ∧
    (stepStatus r f).k8sReleaseValueID = r.k8sReleaseValueID ∧
    (stepStatus r f).viewFieldID = r.viewFieldID ∧
    (stepStatus r f).viewValueID = r.viewValueID ∧
    (stepStatus r f).boardFieldID = r.boardFieldID ∧
    (stepStatus r f).boardValueID = r.boardValueID := by
  unfold stepStatus
  split <;> simp

theorem stepRelease_matched (r : Resolved) (f : ProjectFieldInfo)
    (h : strContains (lowerStr f.name) "k8s release" = true) :
    (stepRelease r f).k8sReleaseFieldID = f.id ∧
    (stepRelease r f).k8sReleaseValueID =
      (if (findLatestOption f.options).snd ≠ some "" then
        (findLatestOption f.options).snd
      else r.k8sReleaseValueID) := by
  unfold stepRelease
  rw [if_pos h]
  exact ⟨rfl, rfl⟩

theorem stepView_matched (r : Resolved) (f : ProjectFieldInfo)
    (h : strContains (lowerStr f.name) "view" = true) :
    (stepView r f).viewFieldID = f.id ∧
    (stepView r f).viewValueID =
      (findOptionBy viewOptionMatch f.options).getD r.viewValueID := by
  unfold stepView
  rw [if_pos h]
  exact ⟨rfl, rfl⟩

theorem stepBoard_matched (board : String) (r : Resolved) (f : ProjectFieldInfo)
    (h : strContains (lowerStr f.name) "board" = true) :
    (stepBoard board r f).boardFieldID = f.id ∧
    (stepBoard board r f).boardValueID =
      (findOptionBy (boardOptionMatch board) f.options).getD r.boardValueID := by
  unfold stepBoard
  rw [if_pos h]
  exact ⟨rfl, rfl⟩

theorem stepStatus_matched (r : Resolved) (f : ProjectFieldInfo)
    (h : strContains (lowerStr f.name) "status" = true) :
    (stepStatus r f).statusFieldID = f.id ∧
    (stepStatus r f).statusValueID =
      (findOptionBy statusOptionMatch f.options).getD r.statusValueID := by
  unfold stepStatus
  rw [if_pos h]
  exact ⟨rfl, rfl⟩

/-- Release components after one whole resolver iteration on a field whose
lower-cased name contains "k8s release". -/
theorem resolveStep_release (board : String) (r : Resolved) (f : ProjectFieldInfo)
    (h : strContains (lowerStr f.name) "k8s release" = true) :
    (resolveStep board r f).k8sReleaseFieldID = f.id ∧
    (resolveStep board r f).k8sReleaseValueID =
      (if (findLatestOption f.options).snd ≠ some "" then
        (findLatestOption f.options).snd
      else r.k8sReleaseValueID) := by
  unfold resolveStep
  rw [(stepStatus_others _ _).1, (stepStatus_others _ _).2.1,
    (stepBoard_others _ _ _).1, (stepBoard_others _ _ _).2.1,
    (stepView_others _ _).1, (stepView_others _ _).2.1]
  exact stepRelease_matched r f h

/-- View components after one whole resolver iteration on a field whose
lower-cased name contains "view". -/
theorem resolveStep_view (board : String) (r : Resolved) (f : ProjectFieldInfo)
    (h : strContains (lowerStr f.name) "view" = true) :
    (resolveStep board r f).viewFieldID = f.id ∧
    (resolveStep board r f).viewValueID =
      (findOptionBy viewOptionMatch f.options).getD r.viewValueID := by
  unfold resolveStep
  rw [(stepStatus_others _ _).2.2.1, (stepStatus_others _ _).2.2.2.1,
    (stepBoard_others _ _ _).2.2.1, (stepBoard_others _ _ _).2.2.2.1]
  have hothers := stepRelease_others r f
  rcases stepView_matched (stepRelease r f) f h with ⟨h1, h2⟩
  rw [h1, h2, hothers.2.1]
  exact ⟨rfl, rfl⟩

/-- Board components after one whole resolver iteration on a field whose
lower-cased name contains "board". -/
theorem resolveStep_board (board : String) (r : Resolved) (f : ProjectFieldInfo)
    (h : strContains (lowerStr f.name) "board" = true) :
    (resolveStep board r f).boardFieldID = f.id ∧
    (resolveStep board r f).boardValueID =
      (findOptionBy (boardOptionMatch board) f.options).getD r.boardValueID := by
  unfold resolveStep
  rw [(stepStatus_others _ _).2.2.2.2.1, (stepStatus_others _ _).2.2.2.2.2]
  rcases stepBoard_matched board (stepView (stepRelease r f) f) f h with ⟨h1, h2⟩
  rw [h1, h2, (stepView_others _ _).2.2.2.1, (stepRelease_others _ _).2.2.2.1]
  exact ⟨rfl, rfl⟩

/-- Status components after one whole resolver iteration on a field whose
lower-cased name contains "status". -/
theorem resolveStep_status (board : String) (r : Resolved) (f : ProjectFieldInfo)
    (h : strContains (lowerStr f.name) "status" = true) :
    (resolveStep board r f).statusFieldID = f.id ∧
    (resolveStep board r f).statusValueID =
      (findOptionBy statusOptionMatch f.options).getD r.statusValueID := by
  unfold resolveStep
  rcases stepStatus_matched (stepBoard board (stepView (stepRelease r f) f) f) f h
    with ⟨h1, h2⟩
  rw [h1, h2, (stepBoard_others _ _ _).2.2.2.2.2, (stepView_others _ _).2.2.2.2.2,
    (stepRelease_others _ _).2.2.2.2.2]
  exact ⟨rfl, rfl⟩

theorem resolveFields_single (board : String) (f : ProjectFieldInfo) :
    resolveFields board [f] = resolveStep board {} f := rfl

-- ===== lemmas: extractVersion matches exactly when the pattern occurs =====

theorem takeDigits_sound (cs : List Char) :
    (takeDigits cs).fst ++ (takeDigits cs).snd = cs ∧
      ∀ c ∈ (takeDigits cs).fst, c.isDigit = true := by
  induction cs with
  | nil => simp [takeDigits]
  | cons c t ih =>
    by_cases h : c.isDigit
    · refine ⟨?_, ?_⟩
      · simp only [takeDigits, h, if_pos, List.cons_append]
        rw [ih.1]
      · intro x hx
        simp only [takeDigits, h, if_pos] at hx
        rcases List.mem_cons.mp hx with rfl | hx2
        · exact h
        · exact ih.2 x hx2
    · simp [takeDigits, h]

theorem takeDigits_app (d r2 : List Char) (hd : ∀ c ∈ d, c.isDigit = true) :
    takeDigits (d ++ '.' :: r2) = (d, '.' :: r2) := by
  induction d with
  | nil =>
    have : ('.' : Char).isDigit = false := by decide
    simp [takeDigits, this]
  | cons c d ih =>
    have hc := hd c (by simp)
    simp [takeDigits, hc, ih fun x hx => hd x (by simp [hx])]

theorem takeDigits_cons_digit (c : Char) (t : List Char) (h : c.isDigit = true) :
    (takeDigits (c :: t)).fst = c :: (takeDigits t).fst := by
  simp [takeDigits, h]

theorem stripV_cases (cs : List Char) : stripV cs = cs ∨ cs = 'v' :: stripV cs := by
  cases cs with
  | nil => left; rfl
  | cons c t =>
    by_cases h : c = 'v'
    · right
      subst h
      simp [stripV]
    · left
      simp [stripV, h]

/-- A successful anchored match decomposes its input as
(optional v) ++ digits ++ '.' ++ digits ++ rest. -/
theorem matchAt_sound (cs : List Char) (d1 d2 : List Char)
    (h : matchAt cs = some (d1, d2)) :
    ∃ pre r, (pre = [] ∨ pre = ['v']) ∧ cs = pre ++ (d1 ++ '.' :: (d2 ++ r)) ∧
      d1 ≠ [] ∧ d2 ≠ [] ∧ (∀ c ∈ d1, c.isDigit = true) ∧
      (∀ c ∈ d2, c.isDigit = true) := by
  unfold matchAt at h
  by_cases hdot : (takeDigits (stripV cs)).snd.headD ' ' = '.'
  swap
  · rw [if_neg hdot] at h
    exact absurd h (by simp)
  rw [if_pos hdot] at h
  by_cases hg : (takeDigits (stripV cs)).fst ≠ [] ∧
      (takeDigits (takeDigits (stripV cs)).snd.tail).fst ≠ []
  swap
  · rw [if_neg hg] at h
    exact absurd h (by simp)
  rw [if_pos hg] at h
  have hpair := Option.some.inj h
  injection hpair with hp1 hp2
  have hrem : (takeDigits (stripV cs)).snd =
      '.' :: (takeDigits (stripV cs)).snd.tail := by
    rcases hr : (takeDigits (stripV cs)).snd with _ | ⟨c0, r2⟩
    · rw [hr] at hdot
      exact absurd hdot (by decide)
    · rw [hr] at hdot
      simp only [List.headD_cons] at hdot
      rw [hdot]
      rfl
  have hstrip : stripV cs =
      (takeDigits (stripV cs)).fst ++
        '.' :: ((takeDigits (takeDigits (stripV cs)).snd.tail).fst ++
          (takeDigits (takeDigits (stripV cs)).snd.tail).snd) := by
    calc stripV cs
        = (takeDigits (stripV cs)).fst ++ (takeDigits (stripV cs)).snd :=
          (takeDigits_sound (stripV cs)).1.symm
      _ = (takeDigits (stripV cs)).fst ++
            '.' :: (takeDigits (stripV cs)).snd.tail := by
          conv_lhs => rw [hrem]
      _ = (takeDigits (stripV cs)).fst ++
            '.' :: ((takeDigits (takeDigits (stripV cs)).snd.tail).fst ++
              (takeDigits (takeDigits (stripV cs)).snd.tail).snd) := by
          rw [(takeDigits_sound (takeDigits (stripV cs)).snd.tail).1]
  have hd1dig : ∀ c ∈ d1, c.isDigit = true := by
    rw [← hp1]
    exact (takeDigits_sound (stripV cs)).2
  have hd2dig : ∀ c ∈ d2, c.isDigit = true := by
    rw [← hp2]
    exact (takeDigits_sound (takeDigits (stripV cs)).snd.tail).2
  have hd1ne : d1 ≠ [] := by rw [← hp1]; exact hg.1
  have hd2ne : d2 ≠ [] := by rw [← hp2]; exact hg.2
  rcases stripV_cases cs with hc | hc
  · refine ⟨[], (takeDigits (takeDigits (stripV cs)).snd.tail).snd, Or.inl rfl,
      ?_, hd1ne, hd2ne, hd1dig, hd2dig⟩
    rw [List.nil_append, ← hp1, ← hp2]
    exact hc.symm.trans hstrip
  · refine ⟨['v'], (takeDigits (takeDigits (stripV cs)).snd.tail).snd, Or.inr rfl,
      ?_, hd1ne, hd2ne, hd1dig, hd2dig⟩
    rw [← hp1, ← hp2, List.singleton_append]
    exact hc.trans (congrArg (List.cons 'v') hstrip)

theorem stripV_of_digit (c : Char) (t : List Char) (h : c.isDigit = true) :
    stripV (c :: t) = c :: t := by
  have hv : ¬ c = 'v' := by
    intro hc
    subst hc
    exact absurd h (by decide)
  simp [stripV, hv]

/-- At a position where digits, a dot and digits start, the anchored match
succeeds. -/
theorem matchAt_complete (d1 d2 r : List Char) (h1 : d1 ≠ []) (h2 : d2 ≠ [])
    (hd1 : ∀ c ∈ d1, c.isDigit = true) (hd2 : ∀ c ∈ d2, c.isDigit = true) :
    matchAt (d1 ++ '.' :: (d2 ++ r)) ≠ none := by
  obtain ⟨c, d1', rfl⟩ := List.exists_cons_of_ne_nil h1
  obtain ⟨e, d2', rfl⟩ := List.exists_cons_of_ne_nil h2
  have hcd : c.isDigit = true := hd1 c (by simp)
  have hed : e.isDigit = true := hd2 e (by simp)
  have hstrip : stripV ((c :: d1') ++ '.' :: ((e :: d2') ++ r)) =
      (c :: d1') ++ '.' :: ((e :: d2') ++ r) := by
    rw [List.cons_append, stripV_of_digit c _ hcd]
  have htd : takeDigits ((c :: d1') ++ '.' :: ((e :: d2') ++ r)) =
      (c :: d1', '.' :: ((e :: d2') ++ r)) := takeDigits_app _ _ hd1
  unfold matchAt
  rw [hstrip, htd]
  have hfst : (takeDigits ((e :: d2') ++ r)).fst = e :: (takeDigits (d2' ++ r)).fst := by
    rw [List.cons_append, takeDigits_cons_digit e _ hed]
  intro hnone
  dsimp only [List.headD_cons, List.tail_cons] at hnone
  rw [if_pos rfl] at hnone
  have hg : (c :: d1') ≠ [] ∧ (takeDigits ((e :: d2') ++ r)).fst ≠ [] := by
    refine ⟨by simp, ?_⟩
    rw [hfst]
    simp
  rw [if_pos hg] at hnone
  exact absurd hnone (by simp)

theorem scan_isSome_of_pat (cs : List Char) (hp : hasVerPat cs) :
    (scanVersion cs).isSome = true := by
  induction cs with
  | nil =>
    obtain ⟨l, d1, d2, r, hcs, h1, _, _, _⟩ := hp
    have := congrArg List.length hcs
    simp only [List.length_nil, List.length_append, List.length_cons] at this
    omega
  | cons c cs' ih =>
    rcases hm : matchAt (c :: cs') with _ | q
    · simp only [scanVersion, hm]
      apply ih
      obtain ⟨l, d1, d2, r, hcs, h1, h2, hd1, hd2⟩ := hp
      cases l with
      | nil =>
        rw [List.nil_append] at hcs
        rw [hcs] at hm
        exact absurd hm (matchAt_complete d1 d2 r h1 h2 hd1 hd2)
      | cons x l' =>
        rw [List.cons_append] at hcs
        injection hcs with hx htail
        exact ⟨l', d1, d2, r, htail, h1, h2, hd1, hd2⟩
    · simp [scanVersion, hm]

theorem pat_of_scan (cs : List Char) (p : List Char × List Char)
    (h : scanVersion cs = some p) : hasVerPat cs := by
  induction cs with
  | nil => exact absurd h (by simp [scanVersion])
  | cons c cs' ih =>
    rcases hm : matchAt (c :: cs') with _ | q
    · simp only [scanVersion, hm] at h
      obtain ⟨l, d1, d2, r, hcs, h1, h2, hd1, hd2⟩ := ih h
      exact ⟨c :: l, d1, d2, r, by rw [List.cons_append, hcs], h1, h2, hd1, hd2⟩
    · rcases q with ⟨d1, d2⟩
      obtain ⟨pre, r, _, hcs, h1, h2, hd1, hd2⟩ := matchAt_sound _ _ _ hm
      exact ⟨pre, d1, d2, r, hcs, h1, h2, hd1, hd2⟩

/-- extractVersion returns "" exactly when no digits-dot-digits pattern
occurs anywhere in the text. -/
theorem extractVersion_eq_empty_iff (text : String) :
    extractVersion text = "" ↔ ¬ hasVerPat text.toList := by
  constructor
  · intro he hp
    have hs := scan_isSome_of_pat _ hp
    unfold extractVersion at he
    rcases hm : scanVersion text.toList with _ | ⟨d1, d2⟩
    · rw [hm] at hs
      exact absurd hs (by simp)
    · rw [hm] at he
      have hlen := congrArg String.length he
      rw [String.length_append, String.length_append] at hlen
      have hdot : ("." : String).length = 1 := rfl
      have hnil : ("" : String).length = 0 := rfl
      omega
  · intro hnp
    unfold extractVersion
    rcases hm : scanVersion text.toList with _ | p
    · rfl
    · exact absurd (pat_of_scan _ p hm) hnp

theorem takeDigits_all (d r : List Char) (hd : ∀ c ∈ d, c.isDigit = true)
    (hr : notDigitStart r = true) : takeDigits (d ++ r) = (d, r) := by
  induction d with
  | nil =>
    rw [List.nil_append]
    cases r with
    | nil => rfl
    | cons c r' =>
      simp only [notDigitStart, Bool.not_eq_true'] at hr
      simp [takeDigits, hr]
  | cons c d' ih =>
    have hc := hd c (by simp)
    rw [List.cons_append]
    simp [takeDigits, hc, ih fun x hx => hd x (by simp [hx])]

theorem stripV_v (t : List Char) : stripV ('v' :: t) = t := by
  simp [stripV]

/-- At a position whose suffix is exactly (optional v) digits dot digits
with a greedy second group, the anchored match succeeds with those exact
groups. -/
theorem matchAt_exact (pre d1 d2 r : List Char)
    (hpre : pre = [] ∨ pre = ['v']) (h1 : d1 ≠ []) (h2 : d2 ≠ [])
    (hd1 : ∀ c ∈ d1, c.isDigit = true) (hd2 : ∀ c ∈ d2, c.isDigit = true)
    (hr : notDigitStart r = true) :
    matchAt (pre ++ (d1 ++ '.' :: (d2 ++ r))) = some (d1, d2) := by
  have hstrip : stripV (pre ++ (d1 ++ '.' :: (d2 ++ r))) =
      d1 ++ '.' :: (d2 ++ r) := by
    rcases hpre with rfl | rfl
    · rw [List.nil_append]
      obtain ⟨c, d1', rfl⟩ := List.exists_cons_of_ne_nil h1
      simp only [List.cons_append]
      exact stripV_of_digit c _ (hd1 c (by simp))
    · rw [List.singleton_append]
      exact stripV_v _
  have htd1 : takeDigits (d1 ++ '.' :: (d2 ++ r)) = (d1, '.' :: (d2 ++ r)) :=
    takeDigits_app d1 _ hd1
  have htd2 : takeDigits (d2 ++ r) = (d2, r) := takeDigits_all d2 r hd2 hr
  unfold matchAt
  rw [hstrip, htd1]
  dsimp only [List.headD_cons, List.tail_cons]
  rw [if_pos rfl, htd2]
  dsimp only
  rw [if_pos ⟨h1, h2⟩]

/-- A successful anchored match witnesses the pattern at position 0. -/
theorem patStartAt_of_matchAt (cs : List Char) (d1 d2 : List Char)
    (h : matchAt cs = some (d1, d2)) : patStartAt cs 0 := by
  obtain ⟨pre, r, hpre, hdec, hh⟩ := matchAt_sound cs d1 d2 h
  exact ⟨pre, d1, d2, r, hpre, by rw [List.drop_zero]; exact hdec, hh⟩

/-- The scan returns exactly the groups of the leftmost pattern position:
if the pattern matches at position i with greedy groups d1, d2 and at no
earlier position, the scan yields (d1, d2). -/
theorem scan_first (cs : List Char) : ∀ (i : Nat) (d1 d2 : List Char),
    patGroupsAt cs i d1 d2 → (∀ j, j < i → ¬ patStartAt cs j) →
    scanVersion cs = some (d1, d2) := by
  induction cs with
  | nil =>
    intro i d1 d2 hp _
    obtain ⟨pre, r, _, hdec, h1, _, _, _, _⟩ := hp
    rw [List.drop_nil] at hdec
    have hlen := congrArg List.length hdec
    obtain ⟨c, d1', rfl⟩ := List.exists_cons_of_ne_nil h1
    simp only [List.length_nil, List.length_append, List.length_cons] at hlen
    omega
  | cons c cs' ih =>
    intro i d1 d2 hp hmin
    cases i with
    | zero =>
      obtain ⟨pre, r, hpre, hdec, h1, h2, hd1, hd2, hr⟩ := hp
      rw [List.drop_zero] at hdec
      have hm : matchAt (c :: cs') = some (d1, d2) := by
        rw [hdec]
        exact matchAt_exact pre d1 d2 r hpre h1 h2 hd1 hd2 hr
      simp [scanVersion, hm]
    | succ j =>
      have hm : matchAt (c :: cs') = none := by
        rcases hq : matchAt (c :: cs') with _ | ⟨a, b⟩
        · rfl
        · exact absurd (patStartAt_of_matchAt _ a b hq)
            (hmin 0 (Nat.succ_pos j))
      simp only [scanVersion, hm]
      apply ih j
      · obtain ⟨pre, r, hpre, hdec, hh⟩ := hp
        rw [List.drop_succ_cons] at hdec
        exact ⟨pre, r, hpre, hdec, hh⟩
      · intro j' hj' hps
        apply hmin (j' + 1) (Nat.succ_lt_succ hj')
        obtain ⟨pre, a, b, r, hpre, hdec, hh⟩ := hps
        exact ⟨pre, a, b, r, hpre, by rw [List.drop_succ_cons]; exact hdec, hh⟩

/-- extractVersion returns exactly the greedy groups of the leftmost
pattern occurrence, joined by a dot (the leading v stripped). -/
theorem extractVersion_first (text : String) (i : Nat) (d1 d2 : List Char)
    (hp : patGroupsAt text.toList i d1 d2)
    (hmin : ∀ j, j < i → ¬ patStartAt text.toList j) :
    extractVersion text = String.mk d1 ++ "." ++ String.mk d2 := by
  unfold extractVersion
  rw [scan_first text.toList i d1 d2 hp hmin]

-- ===== lemmas: GetProjectFields and CreateDraftIssue unfoldings =====

theorem GetProjectFields_ok (g : ProjectManager) (c : Client)
    (nodes : List FieldNode) (hc : g.githubClient = some c)
    (hq : c.queryResult = Except.ok nodes) :
    GetProjectFields g = ([RemoteCall.queryFields], Except.ok (processNodes nodes)) := by
  unfold GetProjectFields
  rw [hc]
  dsimp only
  rw [hq]

theorem GetProjectFields_err (g : ProjectManager) (c : Client) (e : String)
    (hc : g.githubClient = some c) (hq : c.queryResult = Except.error e) :
    GetProjectFields g =
      ([RemoteCall.queryFields],
       Except.error ("failed to query project fields: " ++ e)) := by
  unfold GetProjectFields
  rw [hc]
  dsimp only
  rw [hq]

theorem GetProjectFields_nil (g : ProjectManager) (hc : g.githubClient = none) :
    GetProjectFields g = ([], Except.error "github GraphQL client is nil") := by
  unfold GetProjectFields
  rw [hc]

theorem CreateDraftIssue_nil (g : ProjectManager) (title body board : String)
    (hc : g.githubClient = none) :
    CreateDraftIssue g title body board =
      ⟨[], [], Except.error "github GraphQL client is nil"⟩ := by
  unfold CreateDraftIssue
  rw [hc]

theorem CreateDraftIssue_qerr (g : ProjectManager) (c : Client)
    (e title body board : String)
    (hc : g.githubClient = some c) (hq : c.queryResult = Except.error e) :
    CreateDraftIssue g title body board =
      ⟨[RemoteCall.queryFields], [],
       Except.error
         ("failed to get project fields: " ++
           ("failed to query project fields: " ++ e))⟩ := by
  unfold CreateDraftIssue
  rw [hc]
  dsimp only
  rw [GetProjectFields_err g c e hc hq]

theorem CreateDraftIssue_draft_err (g : ProjectManager) (c : Client)
    (nodes : List FieldNode) (e title body board : String)
    (hc : g.githubClient = some c) (hq : c.queryResult = Except.ok nodes)
    (hd : c.draftResult = Except.error e) :
    CreateDraftIssue g title body board =
      ⟨[RemoteCall.queryFields, RemoteCall.createDraft title body], [],
       Except.error ("failed to create draft issue: " ++ e)⟩ := by
  unfold CreateDraftIssue
  rw [hc]
  dsimp only
  rw [GetProjectFields_ok g c nodes hc hq]
  dsimp only
  rw [hd]
  rfl

theorem CreateDraftIssue_ok (g : ProjectManager) (c : Client)
    (nodes : List FieldNode) (itemID : GoID) (title body board : String)
    (hc : g.githubClient = some c) (hq : c.queryResult = Except.ok nodes)
    (hd : c.draftResult = Except.ok itemID) :
    CreateDraftIssue g title body board =
      ⟨RemoteCall.queryFields :: RemoteCall.createDraft title body ::
         (runUpdates c itemID
           (fieldUpdatesList (resolveFields board (processNodes nodes)))).fst,
       (runUpdates c itemID
         (fieldUpdatesList (resolveFields board (processNodes nodes)))).snd,
       Except.ok ()⟩ := by
  unfold CreateDraftIssue
  rw [hc]
  dsimp only
  rw [GetProjectFields_ok g c nodes hc hq]
  dsimp only
  rw [hd]
  rfl

theorem parsedOptions_mem (opts : List (String × GoID)) (x : String × GoID)
    (hx : x ∈ parsedOptions opts) :
    ∃ o ∈ opts, extractVersion o.fst ≠ "" ∧ x = (extractVersion o.fst, o.snd) := by
  simp only [parsedOptions, List.mem_filterMap] at hx
  rcases hx with ⟨o, ho, hxo⟩
  by_cases h : extractVersion o.fst ≠ ""
  · rw [if_pos h] at hxo
    cases hxo
    exact ⟨o, ho, h, rfl⟩
  · rw [if_neg h] at hxo
    cases hxo

-- ===== witness fixtures =====

/-- A remote schema with the four roles populated, used by witnesses. -/
def wNodes : List FieldNode :=
  [⟨"ProjectV2SingleSelectField", some "relF", "K8s Release",
     [⟨some "o30", "v1.30"⟩, ⟨some "o32", "v1.32"⟩], none, ""⟩,
   ⟨"ProjectV2SingleSelectField", some "viewF", "View",
     [⟨some "vIT", "Issue-Tracking"⟩], none, ""⟩,
   ⟨"ProjectV2SingleSelectField", some "stF", "Status",
     [⟨some "sD", "Drafting"⟩], none, ""⟩,
   ⟨"ProjectV2SingleSelectField", some "bF", "Testgrid Board",
     [⟨some "bMB", "master-blocking"⟩], none, ""⟩]

/-- A client whose Status field update fails and everything else succeeds. -/
def wClient : Client :=
  { queryResult := Except.ok wNodes
    draftResult := Except.ok (some "item1")
    updateResult := fun fid _ =>
      if fid = some "stF" then Except.error "boom" else Except.ok () }

def wManager : ProjectManager := NewProjectManager (fun _ => wClient) "token"

/-- A client whose draft-issue mutation fails. -/
def wClient2 : Client :=
  { queryResult := Except.ok []
    draftResult := Except.error "boom2"
    updateResult := fun _ _ => Except.ok () }

def wManager2 : ProjectManager := NewProjectManager (fun _ => wClient2) "token"

/-- A client whose fields query fails. -/
def wClient3 : Client :=
  { queryResult := Except.error "down"
    draftResult := Except.ok none
    updateResult := fun _ _ => Except.ok () }

def wManager3 : ProjectManager := NewProjectManager (fun _ => wClient3) "token"

/-- A schema with one recognized single-select field, one unrecognized
variant, and one iteration field. -/
def wNodes9 : List FieldNode :=
  [⟨"ProjectV2SingleSelectField", some "f1", "Status",
     [⟨some "o1", "Draft"⟩], none, ""⟩,
   ⟨"ProjectV2TextField", some "tX", "Notes", [], some "tI", "weird"⟩,
   ⟨"ProjectV2IterationField", none, "", [], some "f2", "Sprint"⟩]

def wClient9 : Client :=
  { queryResult := Except.ok wNodes9
    draftResult := Except.ok none
    updateResult := fun _ _ => Except.ok () }

def wManager9 : ProjectManager := NewProjectManager (fun _ => wClient9) "token"

/-- A client that answers with a transport error, standing for the remote
rejecting an empty bearer token. -/
def cBad : Client :=
  { queryResult := Except.error "401 Unauthorized"
    draftResult := Except.ok (some "x")
    updateResult := fun _ _ => Except.ok () }

/-- A manager whose client field is nil; NewProjectManager never builds
this shape. -/
def gNil : ProjectManager :=
  { organization := ORGANIZATION, projectID := PROJECT_ID, fields := [],
    githubClient := none }

-- ===== claim theorems =====

/-- C1: for every run of CreateDraftIssue in which the draft-item creation
mutation succeeds, the attempted field updates are exactly the entries of the
fieldUpdates slice passing the `!= ""` guard, in the fixed source order
K8s Release, View, Status, Testgrid Board; every target whose fieldID and
valueID are both non-empty strings passes that guard and is therefore
attempted; a failing update only contributes a warning naming the role, the
remaining updates still run (the trace lists every guarded target), and the
operation returns success regardless of the update outcomes. -/
theorem c1_best_effort_field_updates (g : ProjectManager) (c : Client)
    (nodes : List FieldNode) (itemID : GoID) (title body board : String)
    (hc : g.githubClient = some c) (hq : c.queryResult = Except.ok nodes)
    (hd : c.draftResult = Except.ok itemID) :
    (CreateDraftIssue g title body board).outcome = Except.ok () ∧
    (CreateDraftIssue g title body board).calls =
      RemoteCall.queryFields :: RemoteCall.createDraft title body ::
        ((fieldUpdatesList (resolveFields board (processNodes nodes))).filter
          updateGuard).map (fun u =>
            RemoteCall.updateField u.fieldName u.fieldID u.optionID itemID) ∧
    (CreateDraftIssue g title body board).warnings =
      ((fieldUpdatesList (resolveFields board (processNodes nodes))).filter
        updateGuard).filterMap (fun u =>
          match c.updateResult u.fieldID u.optionID with
          | Except.ok _ => none
          | Except.error e =>
            some ("Warning: failed to update " ++ u.fieldName ++ " field: " ++ e)) ∧
    (∀ u ∈ fieldUpdatesList (resolveFields board (processNodes nodes)),
      (∃ s, u.fieldID = some s ∧ s ≠ "") → (∃ s, u.optionID = some s ∧ s ≠ "") →
        updateGuard u = true) := by
  rw [CreateDraftIssue_ok g c nodes itemID title body board hc hq hd,
    runUpdates_eq]
  refine ⟨rfl, rfl, rfl, ?_⟩
  intro u _ hfid hoid
  obtain ⟨s, hs, hsne⟩ := hfid
  obtain ⟨s2, hs2, hs2ne⟩ := hoid
  unfold updateGuard
  rw [hs, hs2]
  simp only [Bool.and_eq_true, bne_iff_ne, ne_eq, Option.some.injEq]
  exact ⟨hsne, hs2ne⟩

/-- C1 witness: on a schema carrying all four roles, with the Status update
failing, the run returns success, attempts all four updates in order, and
reports exactly the Status warning. -/
theorem c1_witness :
    (CreateDraftIssue wManager "t" "b" "sig-release-master-blocking").outcome =
      Except.ok () ∧
    (CreateDraftIssue wManager "t" "b" "sig-release-master-blocking").calls =
      [RemoteCall.queryFields, RemoteCall.createDraft "t" "b",
       RemoteCall.updateField "K8s Release" (some "relF") (some "o32") (some "item1"),
       RemoteCall.updateField "View" (some "viewF") (some "vIT") (some "item1"),
       RemoteCall.updateField "Status" (some "stF") (some "sD") (some "item1"),
       RemoteCall.updateField "Testgrid Board" (some "bF") (some "bMB") (some "item1")] ∧
    (CreateDraftIssue wManager "t" "b" "sig-release-master-blocking").warnings =
      ["Warning: failed to update Status field: boom"] := by
  have h := c1_best_effort_field_updates wManager wClient wNodes (some "item1")
    "t" "b" "sig-release-master-blocking" rfl rfl rfl
  refine ⟨h.1, ?_, ?_⟩
  · rw [h.2.1]
    rfl
  · rw [h.2.2.1]
    rfl

/-- C2: if the draft-item creation mutation fails, CreateDraftIssue returns
the wrapped underlying error immediately and the trace shows no field-update
mutation; if field discovery fails, it returns the wrapped discovery error
and the trace shows no mutation at all. -/
theorem c2_fatal_discovery_and_creation_errors :
    (∀ (g : ProjectManager) (c : Client) (nodes : List FieldNode)
        (e title body board : String),
      g.githubClient = some c → c.queryResult = Except.ok nodes →
      c.draftResult = Except.error e →
      CreateDraftIssue g title body board =
        ⟨[RemoteCall.queryFields, RemoteCall.createDraft title body], [],
         Except.error ("failed to create draft issue: " ++ e)⟩) ∧
    (∀ (g : ProjectManager) (c : Client) (e title body board : String),
      g.githubClient = some c → c.queryResult = Except.error e →
      CreateDraftIssue g title body board =
        ⟨[RemoteCall.queryFields], [],
         Except.error ("failed to get project fields: " ++
           ("failed to query project fields: " ++ e))⟩) := by
  constructor
  · intro g c nodes e title body board hc hq hd
    exact CreateDraftIssue_draft_err g c nodes e title body board hc hq hd
  · intro g c e title body board hc hq
    exact CreateDraftIssue_qerr g c e title body board hc hq

/-- C2 witness: a failing draft mutation aborts with its error and no update
call; a failing discovery aborts with its error and no mutation. -/
theorem c2_witness :
    CreateDraftIssue wManager2 "a" "b" "brd" =
      ⟨[RemoteCall.queryFields, RemoteCall.createDraft "a" "b"], [],
       Except.error ("failed to create draft issue: " ++ "boom2")⟩ ∧
    CreateDraftIssue wManager3 "a" "b" "brd" =
      ⟨[RemoteCall.queryFields], [],
       Except.error ("failed to get project fields: " ++
         ("failed to query project fields: " ++ "down"))⟩ :=
  ⟨c2_fatal_discovery_and_creation_errors.1 wManager2 wClient2 [] "boom2"
     "a" "b" "brd" rfl rfl rfl,
   c2_fatal_discovery_and_creation_errors.2 wManager3 wClient3 "down"
     "a" "b" "brd" rfl rfl⟩

/-- C3 counterexample: the claim says ties resolve to whichever option is
encountered first, deterministically by discovery order.  The Release loop
ranges over a Go map (github.go:157) whose iteration order is randomized per
iteration, so no discovery-order tie-break exists: the two option lists here
are permutations of one another (the same map content, two possible
enumeration orders), their names "1.30" and "v1.30" parse to the same
version, and the resolver selects id1 under one enumeration and id2 under
the other. -/
theorem c3_counterexample :
    List.Perm [("1.30", (some "id1" : GoID)), ("v1.30", some "id2")]
      [("v1.30", (some "id2" : GoID)), ("1.30", some "id1")] ∧
    (resolveFields "x" [⟨some "f", "K8s Release",
      [("1.30", some "id1"), ("v1.30", some "id2")]⟩]).k8sReleaseValueID =
      some "id1" ∧
    (resolveFields "x" [⟨some "f", "K8s Release",
      [("v1.30", some "id2"), ("1.30", some "id1")]⟩]).k8sReleaseValueID =
      some "id2" :=
  ⟨by decide, by decide, by decide⟩

/-- C3 amended: for every discovered field whose lower-cased name contains
"k8s release", and under EVERY enumeration order of its option map, the
resolver runs extractVersion on every option's display name, ignores the
options that do not parse, leaves the Release value empty when none parses,
and otherwise selects some parsing option whose parsed version is maximal
under compareVersions; which of several tied maxima is selected depends on
the map enumeration order, which the program leaves unspecified.  On the
spec example (all parsed versions distinct) every enumeration order selects
id2. -/
theorem c3_amended_release_selection :
    (∀ (board name : String) (fid : GoID) (opts : List (String × GoID)),
      strContains (lowerStr name) "k8s release" = true →
      (∀ o ∈ opts, o.snd ≠ some "") →
      (resolveFields board [⟨fid, name, opts⟩]).k8sReleaseFieldID = fid ∧
      (parsedOptions opts = [] →
        (resolveFields board [⟨fid, name, opts⟩]).k8sReleaseValueID = none) ∧
      (parsedOptions opts ≠ [] →
        ∃ m ∈ parsedOptions opts,
          (resolveFields board [⟨fid, name, opts⟩]).k8sReleaseValueID = m.snd ∧
          ∀ y ∈ parsedOptions opts, compareVersions y.fst m.fst ≤ 0)) ∧
    (∀ opts : List (String × GoID),
      List.Perm opts [("v1.30", some "id1"), ("v1.32", some "id2"),
        ("stable", some "id3")] →
      (resolveFields "x"
        [⟨some "f", "K8s Release", opts⟩]).k8sReleaseValueID = some "id2") := by
  have hA : ∀ (board name : String) (fid : GoID) (opts : List (String × GoID)),
      strContains (lowerStr name) "k8s release" = true →
      (∀ o ∈ opts, o.snd ≠ some "") →
      (resolveFields board [⟨fid, name, opts⟩]).k8sReleaseFieldID = fid ∧
      (parsedOptions opts = [] →
        (resolveFields board [⟨fid, name, opts⟩]).k8sReleaseValueID = none) ∧
      (parsedOptions opts ≠ [] →
        ∃ m ∈ parsedOptions opts,
          (resolveFields board [⟨fid, name, opts⟩]).k8sReleaseValueID = m.snd ∧
          ∀ y ∈ parsedOptions opts, compareVersions y.fst m.fst ≤ 0) := by
    intro board name fid opts h ho
    rw [resolveFields_single]
    obtain ⟨h1, h2⟩ := resolveStep_release board {} ⟨fid, name, opts⟩ h
    dsimp only at h1 h2
    refine ⟨h1, ?_, ?_⟩
    · intro hpe
      rw [h2, findLatestOption_eq, hpe]
      simp
    · intro hpne
      rw [h2, findLatestOption_eq]
      rcases hf : (parsedOptions opts).find? (isMaxOf (parsedOptions opts))
        with _ | m
      · exfalso
        have hmem := findLatest_mem opts hpne
        rw [findLatestOption_eq, hf] at hmem
        exact parsed_fst_ne opts _ hmem rfl
      · have hm : m ∈ parsedOptions opts := List.mem_of_find?_eq_some hf
        have hmax := List.find?_some hf
        obtain ⟨o, hoo, _, hmo⟩ := parsedOptions_mem opts m hm
        have hms : m.snd ≠ some "" := by
          rw [hmo]
          exact ho o hoo
        refine ⟨m, hm, by simp [hms], ?_⟩
        intro y hy
        exact (isMaxOf_iff _ _).mp hmax y hy
  refine ⟨hA, ?_⟩
  intro opts hperm
  have ho : ∀ o ∈ opts, o.snd ≠ some "" := by
    intro o hoo
    have hmem := hperm.mem_iff.mp hoo
    simp only [List.mem_cons, List.not_mem_nil, or_false] at hmem
    rcases hmem with rfl | rfl | rfl <;> decide
  have hp2 : List.Perm (parsedOptions opts)
      (parsedOptions [("v1.30", some "id1"), ("v1.32", some "id2"),
        ("stable", some "id3")]) := hperm.filterMap _
  have hconc : parsedOptions [("v1.30", (some "id1" : GoID)),
      ("v1.32", some "id2"), ("stable", some "id3")] =
      [("1.30", some "id1"), ("1.32", some "id2")] := by decide
  have hpne : parsedOptions opts ≠ [] := by
    intro hnil
    have := hp2.length_eq
    rw [hnil, hconc] at this
    exact absurd this (by decide)
  obtain ⟨m, hm, hveq, hmax⟩ :=
    (hA "x" "K8s Release" (some "f") opts (by decide) ho).2.2 hpne
  have h32 : ("1.32", (some "id2" : GoID)) ∈ parsedOptions opts := by
    apply hp2.mem_iff.mpr
    rw [hconc]
    simp
  have hmc := hp2.mem_iff.mp hm
  rw [hconc] at hmc
  simp only [List.mem_cons, List.not_mem_nil, or_false] at hmc
  rcases hmc with rfl | rfl
  · exact absurd (hmax _ h32) (by decide)
  · exact hveq

/-- C3 amended witness: under an enumeration order different from the spec's
listing, the example still selects id2; and a single release field with
distinct versions selects a maximal parsed option. -/
theorem c3_amended_witness :
    List.Perm [("stable", (some "id3" : GoID)), ("v1.32", some "id2"),
      ("v1.30", some "id1")]
      [("v1.30", (some "id1" : GoID)), ("v1.32", some "id2"),
       ("stable", some "id3")] ∧
    (resolveFields "x" [⟨some "f", "K8s Release",
      [("stable", some "id3"), ("v1.32", some "id2"),
       ("v1.30", some "id1")]⟩]).k8sReleaseValueID = some "id2" :=
  ⟨by decide,
   c3_amended_release_selection.2
     [("stable", some "id3"), ("v1.32", some "id2"), ("v1.30", some "id1")]
     (by decide)⟩

/-- C4 counterexample: the claim says the Board option is matched against
the lower-cased board string.  The code matches against the board string as
given: with board "MASTER-BLOCKING" and option "Master-Blocking", the
lower-cased option name is a substring of the lower-cased board string, so
the claim demands the option be selected, yet the resolver leaves the Board
value nil because "master-blocking" is not a substring of the un-lowered
"MASTER-BLOCKING". -/
theorem c4_counterexample :
    strContains (lowerStr "Board") "board" = true ∧
    strContains (lowerStr "MASTER-BLOCKING") (lowerStr "Master-Blocking") = true ∧
    (resolveFields "MASTER-BLOCKING"
      [⟨some "bf", "Board",
        [("Master-Blocking", some "opt1")]⟩]).boardValueID = none :=
  ⟨by decide, by decide, by decide⟩

/-- C4 amended: for every discovered field whose lower-cased name contains
"board", and under every enumeration order of its option map, the resolver
sets the Board field ID; when no option's lower-cased display name is a
substring of the caller-supplied board string AS GIVEN (the board string is
not lower-cased), the Board value is left empty; when at least one option's
lower-cased name is such a substring, the Board value is the id of some such
option (which one is unspecified when several match, since the map
enumeration order is unspecified). -/
theorem c4_amended_board_matching (board name : String) (fid : GoID)
    (opts : List (String × GoID))
    (h : strContains (lowerStr name) "board" = true) :
    (resolveFields board [⟨fid, name, opts⟩]).boardFieldID = fid ∧
    ((∀ o ∈ opts, strContains board (lowerStr o.fst) = false) →
      (resolveFields board [⟨fid, name, opts⟩]).boardValueID = none) ∧
    ((∃ o ∈ opts, strContains board (lowerStr o.fst) = true) →
      ∃ o ∈ opts, strContains board (lowerStr o.fst) = true ∧
        (resolveFields board [⟨fid, name, opts⟩]).boardValueID = o.snd) := by
  rw [resolveFields_single]
  obtain ⟨h1, h2⟩ := resolveStep_board board {} ⟨fid, name, opts⟩ h
  dsimp only at h1 h2
  refine ⟨h1, ?_, ?_⟩
  · intro hnone
    rw [h2, findOptionBy_eq]
    have hfind : opts.find? (fun o => boardOptionMatch board o.fst) = none := by
      rw [List.find?_eq_none]
      intro o hoo
      simp [boardOptionMatch, hnone o hoo]
    rw [hfind]
    rfl
  · intro hex
    obtain ⟨o0, ho0, hmatch⟩ := hex
    rw [h2, findOptionBy_eq]
    have hsome : (opts.find? fun o => boardOptionMatch board o.fst).isSome = true := by
      rw [List.find?_isSome]
      exact ⟨o0, ho0, hmatch⟩
    obtain ⟨m, hfm⟩ := Option.isSome_iff_exists.mp hsome
    refine ⟨m, List.mem_of_find?_eq_some hfm, ?_, ?_⟩
    · have hp := List.find?_some hfm
      simpa [boardOptionMatch] using hp
    · rw [hfm]
      rfl

/-- C4 amended witness: with a single matching option the Board value is
that option's id, and with no matching option it stays empty. -/
theorem c4_amended_witness :
    (resolveFields "sig-release-master-blocking"
      [⟨some "bf", "Testgrid Board",
        [("Master-Blocking", some "b1")]⟩]).boardFieldID = some "bf" ∧
    (∃ o ∈ [("Master-Blocking", (some "b1" : GoID))],
      strContains "sig-release-master-blocking" (lowerStr o.fst) = true ∧
      (resolveFields "sig-release-master-blocking"
        [⟨some "bf", "Testgrid Board",
          [("Master-Blocking", some "b1")]⟩]).boardValueID = o.snd) ∧
    (resolveFields "zzz"
      [⟨some "bf", "Board",
        [("Master-Blocking", some "b1")]⟩]).boardValueID = none := by
  have h1 := c4_amended_board_matching "sig-release-master-blocking"
    "Testgrid Board" (some "bf") [("Master-Blocking", some "b1")] (by decide)
  have h2 := c4_amended_board_matching "zzz" "Board" (some "bf")
    [("Master-Blocking", some "b1")] (by decide)
  exact ⟨h1.1,
    h1.2.2 ⟨("Master-Blocking", some "b1"), by decide, by decide⟩,
    h2.2.1 (by decide)⟩

/-- C5 counterexample: the claim says a credential-less adapter fails every
operation with a NotConfigured error before any remote call.  In the code
g4.NewClient never returns nil, so the nil-client guard cannot fire for a
manager built by NewProjectManager: with an empty token the query IS issued
(the trace shows the remote call) and the surfaced error is the wrapped
transport error, not a distinct configuration error. -/
theorem c5_counterexample :
    (NewProjectManager (fun _ => cBad) "").githubClient = some cBad ∧
    (GetProjectFields (NewProjectManager (fun _ => cBad) "")).fst =
      [RemoteCall.queryFields] ∧
    (GetProjectFields (NewProjectManager (fun _ => cBad) "")).snd =
      Except.error ("failed to query project fields: " ++ "401 Unauthorized") ∧
    (CreateDraftIssue (NewProjectManager (fun _ => cBad) "") "t" "b" "brd").calls =
      [RemoteCall.queryFields] :=
  ⟨rfl, rfl, rfl, rfl⟩

/-- C5 amended: construction always succeeds and always installs a non-nil
client, whatever the token (including the empty one); the "github GraphQL
client is nil" guard fires only for a manager whose client field is nil,
which NewProjectManager never produces, and before any remote call in that
case; a manager built by NewProjectManager always issues the query,
whatever its token. -/
theorem c5_amended_nil_guard (mk : String → Client) (token : String)
    (g0 : ProjectManager) (h0 : g0.githubClient = none)
    (title body board : String) :
    (NewProjectManager mk token).githubClient = some (mk token) ∧
    GetProjectFields g0 = ([], Except.error "github GraphQL client is nil") ∧
    CreateDraftIssue g0 title body board =
      ⟨[], [], Except.error "github GraphQL client is nil"⟩ ∧
    (GetProjectFields (NewProjectManager mk token)).fst =
      [RemoteCall.queryFields] := by
  refine ⟨rfl, GetProjectFields_nil g0 h0,
    CreateDraftIssue_nil g0 title body board h0, ?_⟩
  have hc : (NewProjectManager mk token).githubClient = some (mk token) := rfl
  rcases hq : (mk token).queryResult with e | nodes
  · rw [GetProjectFields_err _ (mk token) e hc hq]
  · rw [GetProjectFields_ok _ (mk token) nodes hc hq]

/-- C5 amended witness: the nil-client guard on a literally nil client, and
a query attempt by a credential-less NewProjectManager manager. -/
theorem c5_amended_witness :
    GetProjectFields gNil = ([], Except.error "github GraphQL client is nil") ∧
    (GetProjectFields (NewProjectManager (fun _ => cBad) "")).fst =
      [RemoteCall.queryFields] := by
  have h := c5_amended_nil_guard (fun _ => cBad) "" gNil rfl "t" "b" "brd"
  exact ⟨h.2.1, h.2.2.2⟩

/-- C6 counterexample: the claim says components are compared as
(unbounded) integers.  strconv.Atoi returns a 64-bit int and, on range
error, the clamped extreme value together with the error the code discards:
both 19-digit components clamp to 2^63 - 1, so the code returns 0, while the
spec's unbounded-integer comparison returns 1. -/
theorem c6_counterexample :
    compareVersions "9999999999999999999" "9999999999999999998" = 0 ∧
    specCompareWith specAtoi "9999999999999999999" "9999999999999999998" = 1 :=
  ⟨by decide, by decide⟩

/-- C6 amended: compareVersions splits both strings on dots, parses each
component with the 64-bit saturating Atoi (syntactically non-numeric
components parse as 0, out-of-range numeric components clamp to the 64-bit
extreme), pads the shorter with zero components, compares left to right and
returns the first nonzero comparison, else 0; the spec examples hold. -/
theorem c6_amended_componentwise_compare :
    (∀ a b : String, compareVersions a b = specCompareWith goAtoi a b) ∧
    compareVersions "1.32" "1.4" = 1 ∧
    compareVersions "1.30" "1.30.0" = 0 ∧
    goAtoi "30" = 30 ∧ goAtoi "beta" = 0 ∧ goAtoi "" = 0 :=
  ⟨compareVersions_eq_spec, by decide, by decide, by decide, by decide,
   by decide⟩

/-- C7: compareVersions is reflexive, antisymmetric and transitive on
well-formed dotted-numeric version strings. -/
theorem c7_total_order_wellformed (a b c : String)
    (_ha : wfVersion a = true) (_hb : wfVersion b = true)
    (_hc : wfVersion c = true) :
    compareVersions a a = 0 ∧
    compareVersions a b = -(compareVersions b a) ∧
    (compareVersions a b ≤ 0 → compareVersions b c ≤ 0 →
      compareVersions a c ≤ 0) :=
  ⟨compareVersions_refl a, compareVersions_antisym a b,
   compareVersions_trans a b c⟩

/-- C7 witness: the order laws at "1.30", "1.31", "2.0". -/
theorem c7_witness :
    wfVersion "1.30" = true ∧ wfVersion "1.31" = true ∧ wfVersion "2.0" = true ∧
    (compareVersions "1.30" "1.30" = 0 ∧
     compareVersions "1.30" "1.31" = -(compareVersions "1.31" "1.30") ∧
     (compareVersions "1.30" "1.31" ≤ 0 → compareVersions "1.31" "2.0" ≤ 0 →
       compareVersions "1.30" "2.0" ≤ 0)) :=
  ⟨by decide, by decide, by decide,
   c7_total_order_wellformed "1.30" "1.31" "2.0" (by decide) (by decide)
     (by decide)⟩

/-- C8: for every input text, extractVersion returns "" exactly when no
digits-dot-digits pattern occurs in the text, and whenever the pattern
occurs first at position i — optional leading 'v', greedy digit group d1, a
dot, greedy digit group d2, with no earlier position admitting a match — it
returns exactly d1 ++ "." ++ d2, the matched substring with the leading 'v'
stripped; the spec examples and a first-match example are included. -/
theorem c8_extract_version_pattern :
    extractVersion "v1.32 stable" = "1.32" ∧
    extractVersion "1.30" = "1.30" ∧
    extractVersion "latest" = "" ∧
    extractVersion "v1.2 v3.4" = "1.2" ∧
    (∀ text : String, extractVersion text = "" ↔ ¬ hasVerPat text.toList) ∧
    (∀ (text : String) (i : Nat) (d1 d2 : List Char),
      patGroupsAt text.toList i d1 d2 →
      (∀ j, j < i → ¬ patStartAt text.toList j) →
      extractVersion text = String.mk d1 ++ "." ++ String.mk d2) :=
  ⟨by decide, by decide, by decide, by decide, extractVersion_eq_empty_iff,
   extractVersion_first⟩

/-- C8 witness: on "xv1.32 stable" the first occurrence starts at position 1
with groups "1" and "32", position 0 admits no match, and extractVersion
returns "1.32". -/
theorem c8_witness :
    patGroupsAt ("xv1.32 stable").toList 1 ['1'] ['3', '2'] ∧
    extractVersion "xv1.32 stable" =
      String.mk ['1'] ++ "." ++ String.mk ['3', '2'] := by
  have hp : patGroupsAt ("xv1.32 stable").toList 1 ['1'] ['3', '2'] := by
    refine ⟨['v'], [' ', 's', 't', 'a', 'b', 'l', 'e'], Or.inr rfl, by decide,
      by decide, by decide, by decide, by decide, by decide⟩
  have hmin : ∀ j, j < 1 → ¬ patStartAt ("xv1.32 stable").toList j := by
    intro j hj hps
    interval_cases j
    obtain ⟨pre, d1, d2, r, hpre, hdec, h1, _, hd1, _⟩ := hps
    rw [List.drop_zero] at hdec
    rcases hpre with rfl | rfl
    · obtain ⟨c, d1', rfl⟩ := List.exists_cons_of_ne_nil h1
      rw [List.nil_append, List.cons_append] at hdec
      have hx : c = 'x' := by
        have := congrArg (fun l => List.headD l ' ') hdec
        simpa using this.symm
      have := hd1 c (by simp)
      rw [hx] at this
      exact absurd this (by decide)
    · rw [List.singleton_append] at hdec
      have := congrArg (fun l => List.headD l ' ') hdec
      simp at this
  exact ⟨hp, c8_extract_version_pattern.2.2.2.2.2 "xv1.32 stable" 1
    ['1'] ['3', '2'] hp hmin⟩

/-- C9: a successful discovery call normalizes exactly the recognized
variants, in order (the result is the filterMap of the per-node view): every
returned field stems from a single-select node (name, id, option mapping) or
an iteration node (name, id, empty options), and any other variant maps to
none, i.e. is dropped without failing the call. -/
theorem c9_discovery_variants (g : ProjectManager) (c : Client)
    (nodes : List FieldNode) (hc : g.githubClient = some c)
    (hq : c.queryResult = Except.ok nodes) :
    (GetProjectFields g).snd = Except.ok (nodes.filterMap nodeToField) ∧
    (∀ f ∈ processNodes nodes, ∃ n ∈ nodes,
      (n.typename = "ProjectV2SingleSelectField" ∧
        f = ⟨n.ssId, n.ssName, buildOptions n.ssOptions⟩) ∨
      (n.typename = "ProjectV2IterationField" ∧ f = ⟨n.itId, n.itName, []⟩)) ∧
    (∀ n : FieldNode, n.typename ≠ "ProjectV2SingleSelectField" →
      n.typename ≠ "ProjectV2IterationField" → nodeToField n = none) := by
  refine ⟨?_, ?_, ?_⟩
  · rw [GetProjectFields_ok g c nodes hc hq]
    dsimp only
    rw [processNodes_eq]
  · intro f hf
    rw [processNodes_eq, List.mem_filterMap] at hf
    obtain ⟨n, hn, hnf⟩ := hf
    refine ⟨n, hn, ?_⟩
    unfold nodeToField at hnf
    by_cases h1 : n.typename = "ProjectV2SingleSelectField"
    · rw [if_pos h1] at hnf
      exact Or.inl ⟨h1, (Option.some.inj hnf).symm⟩
    · rw [if_neg h1] at hnf
      by_cases h2 : n.typename = "ProjectV2IterationField"
      · rw [if_pos h2] at hnf
        exact Or.inr ⟨h2, (Option.some.inj hnf).symm⟩
      · rw [if_neg h2] at hnf
        cases hnf
  · intro n h1 h2
    unfold nodeToField
    rw [if_neg h1, if_neg h2]

/-- C9 witness: a schema with a single-select node, an unrecognized
ProjectV2TextField node and an iteration node discovers to exactly the two
recognized fields; the unrecognized node maps to none. -/
theorem c9_witness :
    (GetProjectFields wManager9).snd =
      Except.ok [⟨some "f1", "Status", [("Draft", some "o1")]⟩,
        ⟨some "f2", "Sprint", []⟩] ∧
    nodeToField ⟨"ProjectV2TextField", some "tX", "Notes", [], some "tI",
      "weird"⟩ = none := by
  have h := c9_discovery_variants wManager9 wClient9 wNodes9 rfl rfl
  refine ⟨?_, ?_⟩
  · rw [h.1]
    rfl
  · exact h.2.2 _ (by decide) (by decide)

/-- C10: for each role, a later field matching the role's name predicate
always overwrites the resolved fieldID, while the resolved valueID is kept
whenever that later field yields no option match (for Release: whenever the
latest-version loop left its ID at the empty-string sentinel); consequently
a run can pair the fieldID of a later field with the valueID of an earlier
one, as the two-View-fields example shows. -/
theorem c10_fieldid_overwritten_valueid_kept :
    (∀ (board : String) (r : Resolved) (f : ProjectFieldInfo),
      strContains (lowerStr f.name) "k8s release" = true →
      (resolveStep board r f).k8sReleaseFieldID = f.id ∧
      ((findLatestOption f.options).snd = some "" →
        (resolveStep board r f).k8sReleaseValueID = r.k8sReleaseValueID)) ∧
    (∀ (board : String) (r : Resolved) (f : ProjectFieldInfo),
      strContains (lowerStr f.name) "view" = true →
      (resolveStep board r f).viewFieldID = f.id ∧
      (findOptionBy viewOptionMatch f.options = none →
        (resolveStep board r f).viewValueID = r.viewValueID)) ∧
    (∀ (board : String) (r : Resolved) (f : ProjectFieldInfo),
      strContains (lowerStr f.name) "board" = true →
      (resolveStep board r f).boardFieldID = f.id ∧
      (findOptionBy (boardOptionMatch board) f.options = none →
        (resolveStep board r f).boardValueID = r.boardValueID)) ∧
    (∀ (board : String) (r : Resolved) (f : ProjectFieldInfo),
      strContains (lowerStr f.name) "status" = true →
      (resolveStep board r f).statusFieldID = f.id ∧
      (findOptionBy statusOptionMatch f.options = none →
        (resolveStep board r f).statusValueID = r.statusValueID)) ∧
    ((resolveFields "" [⟨some "F1", "View", [("issue-tracking", some "V1")]⟩,
        ⟨some "F2", "View Extra", []⟩]).viewFieldID = some "F2" ∧
     (resolveFields "" [⟨some "F1", "View", [("issue-tracking", some "V1")]⟩,
        ⟨some "F2", "View Extra", []⟩]).viewValueID = some "V1") := by
  refine ⟨?_, ?_, ?_, ?_, by decide, by decide⟩
  · intro board r f h
    obtain ⟨h1, h2⟩ := resolveStep_release board r f h
    refine ⟨h1, fun hnone => ?_⟩
    rw [h2, hnone]
    simp
  · intro board r f h
    obtain ⟨h1, h2⟩ := resolveStep_view board r f h
    refine ⟨h1, fun hnone => ?_⟩
    rw [h2, hnone]
    rfl
  · intro board r f h
    obtain ⟨h1, h2⟩ := resolveStep_board board r f h
    refine ⟨h1, fun hnone => ?_⟩
    rw [h2, hnone]
    rfl
  · intro board r f h
    obtain ⟨h1, h2⟩ := resolveStep_status board r f h
    refine ⟨h1, fun hnone => ?_⟩
    rw [h2, hnone]
    rfl

/-- A prior resolver state carrying a View value from an earlier field. -/
def rOld : Resolved := { viewValueID := some "OLD" }

/-- C10 witness: a later option-less View field overwrites the fieldID and
keeps the earlier valueID. -/
theorem c10_witness :
    (resolveStep "" rOld ⟨some "F2", "View Extra", []⟩).viewFieldID = some "F2" ∧
    (resolveStep "" rOld ⟨some "F2", "View Extra", []⟩).viewValueID = some "OLD" := by
  have h := c10_fieldid_overwritten_valueid_kept.2.1 ""
    rOld ⟨some "F2", "View Extra", []⟩ (by decide)
  exact ⟨h.1, (h.2 rfl).trans rfl⟩

end SignalHound
